import Mathlib

/-!
Verification of the bencode codec library (src/lib/bencode.h).

Bytes are modelled as natural numbers (ASCII codes written as numerals:
100 = d, 101 = e, 105 = i, 108 = l, 58 = colon, 45 = minus, 48..57 =
digits) and byte strings as lists of naturals.  The item tree is the
inductive `BItem`.  The decoder, validator, encoder, arena allocator and
dictionary hash index are implemented in bencode.c, which is not among
the provided sources; those parts are modelled from the specification
(each such definition carries a doc comment starting with
"Modelled from the spec:").  The INLINE functions defined in bencode.h
itself (bencode_strcmp, bencode_strdup, bencode_strdup_str,
bencode_dictionary_add, bencode_dictionary_get, ...) are translated
directly from that source.
-/

namespace Bencode

/-- A byte is a digit character (ASCII 48..57). -/
def isDigit (c : Nat) : Bool := 48 ≤ c && c ≤ 57

/-- Numeric value of a string of ASCII digits, most significant first. -/
def digitsVal (ds : List Nat) : Nat := ds.foldl (fun a d => a * 10 + (d - 48)) 0

/-- Fuel-driven rendering of a natural number as ASCII decimal digits. -/
def natDigitsAux : Nat → Nat → List Nat
  | 0, _ => []
  | fuel+1, n => if n < 10 then [48 + n] else natDigitsAux fuel (n / 10) ++ [48 + n % 10]

/-- ASCII decimal digits of a natural number, no leading zeros, "0" for zero. -/
def natDigits (n : Nat) : List Nat := natDigitsAux (n + 1) n

theorem natDigitsAux_succ (f n : Nat) :
    natDigitsAux (f + 1) n =
      if n < 10 then [48 + n] else natDigitsAux f (n / 10) ++ [48 + n % 10] := rfl

theorem natDigitsAux_stable : ∀ f g n, n < f → n < g → natDigitsAux f n = natDigitsAux g n := by
  intro f
  induction f with
  | zero => intro g n h _; omega
  | succ f ih =>
    intro g n hf hg
    match g, hg with
    | g+1, hg =>
      by_cases h10 : n < 10
      · simp [natDigitsAux_succ, h10]
      · have hdiv : n / 10 < n := Nat.div_lt_self (by omega) (by omega)
        rw [natDigitsAux_succ, natDigitsAux_succ, if_neg h10, if_neg h10,
            ih g (n / 10) (by omega) (by omega)]

theorem natDigits_lt10 {n : Nat} (h : n < 10) : natDigits n = [48 + n] := by
  show natDigitsAux (n + 1) n = _
  rw [natDigitsAux_succ, if_pos h]

theorem natDigits_ge10 {n : Nat} (h : 10 ≤ n) :
    natDigits n = natDigits (n / 10) ++ [48 + n % 10] := by
  have hdiv : n / 10 < n := Nat.div_lt_self (by omega) (by omega)
  have e1 : natDigits n = natDigitsAux n (n / 10) ++ [48 + n % 10] := by
    show natDigitsAux (n + 1) n = _
    rw [natDigitsAux_succ, if_neg (by omega : ¬ n < 10)]
  rw [e1, natDigitsAux_stable n (n / 10 + 1) (n / 10) (by omega) (by omega)]
  rfl

theorem natDigits_ne_nil (n : Nat) : natDigits n ≠ [] := by
  by_cases h : n < 10
  · rw [natDigits_lt10 h]; simp
  · rw [natDigits_ge10 (by omega)]; simp

theorem natDigits_isDigit (n : Nat) : ∀ d ∈ natDigits n, isDigit d = true := by
  induction n using Nat.strong_induction_on with
  | _ n ih =>
    by_cases h : n < 10
    · rw [natDigits_lt10 h]
      intro d hd
      simp only [List.mem_singleton] at hd
      subst hd
      simp [isDigit]
      omega
    · rw [natDigits_ge10 (by omega)]
      intro d hd
      rcases List.mem_append.mp hd with h1 | h2
      · exact ih (n / 10) (Nat.div_lt_self (by omega) (by omega)) d h1
      · simp only [List.mem_singleton] at h2
        subst h2
        have := Nat.mod_lt n (show 0 < 10 by omega)
        simp [isDigit]
        omega

theorem natDigits_head_ne_48 {n : Nat} (h : 1 ≤ n) : (natDigits n).head? ≠ some 48 := by
  induction n using Nat.strong_induction_on with
  | _ n ih =>
    by_cases h10 : n < 10
    · rw [natDigits_lt10 h10]
      simp
      omega
    · rw [natDigits_ge10 (by omega)]
      have hne := natDigits_ne_nil (n / 10)
      have hd : 1 ≤ n / 10 := Nat.one_le_div_iff (by omega) |>.mpr (by omega)
      have := ih (n / 10) (Nat.div_lt_self (by omega) (by omega)) hd
      cases hnd : natDigits (n / 10) with
      | nil => exact absurd hnd hne
      | cons a l =>
        rw [hnd] at this
        simpa using this

theorem digitsVal_append_singleton (xs : List Nat) (d : Nat) :
    digitsVal (xs ++ [d]) = digitsVal xs * 10 + (d - 48) := by
  simp [digitsVal, List.foldl_append]

theorem digitsVal_natDigits (n : Nat) : digitsVal (natDigits n) = n := by
  induction n using Nat.strong_induction_on with
  | _ n ih =>
    by_cases h : n < 10
    · rw [natDigits_lt10 h]
      simp only [digitsVal, List.foldl_cons, List.foldl_nil]
      omega
    · rw [natDigits_ge10 (by omega), digitsVal_append_singleton,
          ih (n / 10) (Nat.div_lt_self (by omega) (by omega))]
      omega

/-- The bencode item tree (struct bencode_item): a tagged variant over byte
strings, 64-bit signed integers, lists, and dictionaries whose children are
ordered key/value pairs with byte-string keys. -/
inductive BItem : Type where
  | bstr : List Nat → BItem
  | bint : Int → BItem
  | blist : List BItem → BItem
  | bdict : List (List Nat × BItem) → BItem

/-- ASCII rendering of a long long integer value: optional minus sign
followed by the decimal digits of the magnitude. -/
def intChars (i : Int) : List Nat :=
  if i < 0 then 45 :: natDigits i.natAbs else natDigits i.natAbs

mutual
/-- Modelled from the spec: the encoder (bencode_collapse and the measure
and emit passes behind bencode_iovec live in bencode.c, absent from the
sources).  Emits the exact grammar of section 4.3: a string is its decimal
length, a colon, then the raw bytes; an integer is i&lt;digits&gt;e; a list is
l&lt;items&gt;e; a dictionary is d&lt;key value pairs&gt;e in insertion order. -/
def encItem : BItem → List Nat
  | .bstr s => natDigits s.length ++ 58 :: s
  | .bint i => 105 :: intChars i ++ [101]
  | .blist xs => 108 :: encItems xs ++ [101]
  | .bdict ps => 100 :: encPairs ps ++ [101]

/-- Concatenated encodings of the members of a list item. -/
def encItems : List BItem → List Nat
  | [] => []
  | x :: xs => encItem x ++ encItems xs

/-- Concatenated encodings of the key/value pairs of a dictionary item;
each key is encoded as a byte string. -/
def encPairs : List (List Nat × BItem) → List Nat
  | [] => []
  | (k, v) :: ps => (natDigits k.length ++ 58 :: k) ++ encItem v ++ encPairs ps
end

/-- Magnitude bound of the long long int item value: 2^63. -/
def LLMAX : Nat := 2 ^ 63

mutual
/-- A tree is buildable by the library when every integer item fits in a
64-bit signed long long, the type of struct bencode_item value fields. -/
def bencode_wf : BItem → Bool
  | .bstr _ => true
  | .bint i => decide (-(LLMAX : Int) ≤ i) && decide (i < LLMAX)
  | .blist xs => wfItems xs
  | .bdict ps => wfPairs ps

/-- Well-formedness of all members of a list item. -/
def wfItems : List BItem → Bool
  | [] => true
  | x :: xs => bencode_wf x && wfItems xs

/-- Well-formedness of all values of a dictionary item. -/
def wfPairs : List (List Nat × BItem) → Bool
  | [] => true
  | (_, v) :: ps => bencode_wf v && wfPairs ps
end

/-- Result of decoding one item: the item and the unconsumed input, the
incomplete outcome, or the invalid outcome. -/
inductive DRes : Type where
  | found : BItem → List Nat → DRes
  | more : DRes
  | bad : DRes

/-- Result of decoding the children of a list up to its end marker. -/
inductive LRes : Type where
  | found : List BItem → List Nat → LRes
  | more : LRes
  | bad : LRes

/-- Result of decoding the key/value pairs of a dictionary up to its end
marker. -/
inductive PRes : Type where
  | found : List (List Nat × BItem) → List Nat → PRes
  | more : PRes
  | bad : PRes

/-- Modelled from the spec: the integer numeral check of the decoder in
bencode.c (absent from the sources), applied to the maximal digit run ds
after i (and after an optional minus sign, recorded in neg) and to the
remaining input after that run.  Rejects a leading zero unless the
numeral is exactly 0, rejects -0, requires the e terminator, and rejects
values that overflow a 64-bit signed integer. -/
def decIntNum (neg : Bool) (ds rest : List Nat) : DRes :=
  match ds with
  | [] =>
    match rest with
    | [] => .more
    | _ :: _ => .bad
  | d :: ds2 =>
    if d = 48 ∧ (neg = true ∨ ds2 ≠ []) then .bad
    else
      match rest with
      | [] => .more
      | e :: rest2 =>
        if e = 101 then
          if neg then
            if digitsVal (d :: ds2) ≤ LLMAX then
              .found (.bint (-(digitsVal (d :: ds2) : Int))) rest2
            else .bad
          else
            if digitsVal (d :: ds2) < LLMAX then
              .found (.bint (digitsVal (d :: ds2) : Int)) rest2
            else .bad
        else .bad

/-- Modelled from the spec: splits the input at the maximal leading digit
run and applies the integer numeral check. -/
def decIntDigits (neg : Bool) (r : List Nat) : DRes :=
  decIntNum neg (r.takeWhile isDigit) (r.dropWhile isDigit)

/-- Modelled from the spec: the integer branch of the decoder in bencode.c
(absent from the sources).  The argument is the input after the leading i
byte; a minus sign is consumed here. -/
def decInt (r : List Nat) : DRes :=
  match r with
  | [] => .more
  | c :: r2 => if c = 45 then decIntDigits true r2 else decIntDigits false (c :: r2)

/-- Modelled from the spec: the string length and payload check of the
decoder in bencode.c (absent from the sources), applied to the maximal
leading digit run of the input (the decimal length numeral) and to the
remaining input after it.  Requires the colon separator and takes the
next length bytes as the payload, reporting incomplete when fewer bytes
are available. -/
def decStrNum (ds rest : List Nat) : DRes :=
  match ds with
  | [] => .bad
  | d :: ds2 =>
    match rest with
    | [] => .more
    | e :: r2 =>
      if e = 58 then
        if r2.length < digitsVal (d :: ds2) then .more
        else .found (.bstr (r2.take (digitsVal (d :: ds2)))) (r2.drop (digitsVal (d :: ds2)))
      else .bad

/-- Modelled from the spec: the string branch of the decoder in bencode.c
(absent from the sources).  Parses the decimal length, requires the colon
separator, and takes the next length bytes as the string payload. -/
def decStr (s : List Nat) : DRes :=
  decStrNum (s.takeWhile isDigit) (s.dropWhile isDigit)

/-- Wraps a decoded children sequence into a list item, passing the
incomplete and invalid outcomes through. -/
def listStep : LRes → DRes
  | .found xs rest => .found (.blist xs) rest
  | .more => .more
  | .bad => .bad

/-- Wraps decoded key/value pairs into a dictionary item, passing the
incomplete and invalid outcomes through. -/
def dictStep : PRes → DRes
  | .found ps rest => .found (.bdict ps) rest
  | .more => .more
  | .bad => .bad

/-- One step of the list-children loop: after decoding one child, run the
continuation on the unconsumed input and prepend the child. -/
def seqComb (dres : DRes) (k : List Nat → LRes) : LRes :=
  match dres with
  | .found t rest =>
    match k rest with
    | .found xs rest2 => .found (t :: xs) rest2
    | .more => .more
    | .bad => .bad
  | .more => .more
  | .bad => .bad

/-- One step of the dictionary-children loop: the decoded key must be a
string; the value is decoded from the unconsumed input by kv, then the
continuation k decodes the remaining pairs. -/
def pairComb (dres : DRes) (kv : List Nat → DRes) (k : List Nat → PRes) : PRes :=
  match dres with
  | .found (.bstr key) rest =>
    match kv rest with
    | .found v rest2 =>
      match k rest2 with
      | .found ps rest3 => .found ((key, v) :: ps) rest3
      | .more => .more
      | .bad => .bad
    | .more => .more
    | .bad => .bad
  | .found _ _ => .bad
  | .more => .more
  | .bad => .bad

mutual
/-- Modelled from the spec: the recursive-descent decoder core of
bencode.c (absent from the sources), shared by bencode_decode and
bencode_valid, which perform the identical grammar check.  Dispatches on
the lead byte: i starts an integer, l a list, d a dictionary, a digit a
string; anything else is a syntax error.  The fuel argument only bounds
recursion depth; 2*length+1 fuel is proven sufficient below. -/
def bdec : Nat → List Nat → DRes
  | 0, _ => .more
  | _+1, [] => .more
  | f+1, c :: r =>
    if c = 105 then decInt r
    else if c = 108 then listStep (bdecSeq f r)
    else if c = 100 then dictStep (bdecPairs f r)
    else if isDigit c then decStr (c :: r)
    else .bad

/-- Modelled from the spec: the list-children loop of the decoder in
bencode.c (absent from the sources): decode items until the e sentinel,
failing if the input is exhausted first. -/
def bdecSeq : Nat → List Nat → LRes
  | 0, _ => .more
  | _+1, [] => .more
  | f+1, c :: r =>
    if c = 101 then .found [] r
    else seqComb (bdec f (c :: r)) (bdecSeq f)

/-- Modelled from the spec: the dictionary-children loop of the decoder in
bencode.c (absent from the sources): decode key/value pairs until the e
sentinel, requiring each key to be a string. -/
def bdecPairs : Nat → List Nat → PRes
  | 0, _ => .more
  | _+1, [] => .more
  | f+1, c :: r =>
    if c = 101 then .found [] r
    else pairComb (bdec f (c :: r)) (bdec f) (bdecPairs f)
end

/-- Modelled from the spec: bencode_decode of bencode.c (absent from the
sources).  Decodes one document from the byte range; on success the
result carries the root item and the count of input bytes consumed (the
root item str_len field); on any grammar violation or truncated input it
returns an absent result. -/
def bencode_decode (s : List Nat) : Option (BItem × Nat) :=
  match bdec (2 * s.length + 1) s with
  | .found t rest => some (t, s.length - rest.length)
  | _ => none

/-- Modelled from the spec: bencode_valid of bencode.c (absent from the
sources).  Performs the identical grammar check without building a tree:
the number of bytes consumed by a complete valid document, -1 when more
bytes are needed, -2 on a definite syntax error. -/
def bencode_valid (s : List Nat) : Int :=
  match bdec (2 * s.length + 1) s with
  | .found _ rest => ((s.length - rest.length : Nat) : Int)
  | .more => -1
  | .bad => -2

/-- Modelled from the spec: bencode_collapse of bencode.c (absent from the
sources).  Concatenates every encoded segment of the document under the
root into one contiguous buffer and reports its exact byte length. -/
def bencode_collapse (root : BItem) : List Nat × Nat :=
  (encItem root, (encItem root).length)

/-! Unfolding equations for the decoder core. -/

theorem bdec_zero (s : List Nat) : bdec 0 s = .more := rfl

theorem bdec_nil : ∀ f, bdec f [] = .more
  | 0 => rfl
  | _+1 => rfl

theorem bdec_cons (f : Nat) (c : Nat) (r : List Nat) :
    bdec (f+1) (c :: r) =
      if c = 105 then decInt r
      else if c = 108 then listStep (bdecSeq f r)
      else if c = 100 then dictStep (bdecPairs f r)
      else if isDigit c then decStr (c :: r)
      else .bad := rfl

theorem bdecSeq_zero (s : List Nat) : bdecSeq 0 s = .more := rfl

theorem bdecSeq_nil : ∀ f, bdecSeq f [] = .more
  | 0 => rfl
  | _+1 => rfl

theorem bdecSeq_cons (f : Nat) (c : Nat) (r : List Nat) :
    bdecSeq (f+1) (c :: r) =
      if c = 101 then .found [] r
      else seqComb (bdec f (c :: r)) (bdecSeq f) := rfl

theorem bdecPairs_zero (s : List Nat) : bdecPairs 0 s = .more := rfl

theorem bdecPairs_nil : ∀ f, bdecPairs f [] = .more
  | 0 => rfl
  | _+1 => rfl

theorem bdecPairs_cons (f : Nat) (c : Nat) (r : List Nat) :
    bdecPairs (f+1) (c :: r) =
      if c = 101 then .found [] r
      else pairComb (bdec f (c :: r)) (bdec f) (bdecPairs f) := rfl

/-! List facts about takeWhile, dropWhile, take and drop used to reason
about the digit scanners. -/

theorem takeWhile_append_all {p : Nat → Bool} :
    ∀ (xs ys : List Nat), (∀ x ∈ xs, p x = true) →
      (xs ++ ys).takeWhile p = xs ++ ys.takeWhile p := by
  intro xs
  induction xs with
  | nil => intro ys h; simp
  | cons a l ih =>
    intro ys h
    have ha : p a = true := h a (List.mem_cons_self a l)
    simp only [List.cons_append, List.takeWhile_cons, ha, if_true]
    rw [ih ys (fun x hx => h x (List.mem_cons_of_mem a hx))]

theorem dropWhile_append_all {p : Nat → Bool} :
    ∀ (xs ys : List Nat), (∀ x ∈ xs, p x = true) →
      (xs ++ ys).dropWhile p = ys.dropWhile p := by
  intro xs
  induction xs with
  | nil => intro ys h; simp
  | cons a l ih =>
    intro ys h
    have ha : p a = true := h a (List.mem_cons_self a l)
    simp only [List.cons_append, List.dropWhile_cons, ha, if_true]
    exact ih ys (fun x hx => h x (List.mem_cons_of_mem a hx))

theorem takeWhile_cons_neg {p : Nat → Bool} {c : Nat} (t : List Nat) (hc : p c = false) :
    (c :: t).takeWhile p = [] := by
  simp [List.takeWhile_cons, hc]

theorem dropWhile_cons_neg {p : Nat → Bool} {c : Nat} (t : List Nat) (hc : p c = false) :
    (c :: t).dropWhile p = c :: t := by
  simp [List.dropWhile_cons, hc]

theorem mem_takeWhile_digit {r : List Nat} {x : Nat} (h : x ∈ r.takeWhile isDigit) :
    isDigit x = true :=
  List.mem_takeWhile_imp h

theorem isDigit_58 : isDigit 58 = false := rfl

theorem isDigit_101 : isDigit 101 = false := rfl

/-- An input made of an all-digit run followed by nothing or by a
non-digit byte splits back into exactly those two parts. -/
theorem takeWhile_split {ds dw : List Nat} (hds : ∀ x ∈ ds, isDigit x = true)
    (hdw : ∀ c t, dw = c :: t → isDigit c = false) :
    (ds ++ dw).takeWhile isDigit = ds ∧ (ds ++ dw).dropWhile isDigit = dw := by
  constructor
  · rw [takeWhile_append_all ds dw hds]
    cases dw with
    | nil => simp
    | cons c t => rw [takeWhile_cons_neg t (hdw c t rfl)]; simp
  · rw [dropWhile_append_all ds dw hds]
    cases dw with
    | nil => simp
    | cons c t => exact dropWhile_cons_neg t (hdw c t rfl)

/-! The found-result packages of the scanners: a successful scan
determines a nonempty consumed segment of the input; re-running the
scanner on that segment followed by anything succeeds identically, and
running it on any strict front part of the segment reports incomplete. -/

theorem decIntNum_nil_nil (neg : Bool) : decIntNum neg [] [] = .more := rfl

theorem decIntNum_nil_cons (neg : Bool) (c : Nat) (t : List Nat) :
    decIntNum neg [] (c :: t) = .bad := rfl

theorem decIntNum_cons_nil (neg : Bool) (d : Nat) (ds2 : List Nat) :
    decIntNum neg (d :: ds2) [] =
      if d = 48 ∧ (neg = true ∨ ds2 ≠ []) then .bad else .more := rfl

theorem decIntNum_cons_cons (neg : Bool) (d : Nat) (ds2 : List Nat) (e : Nat) (rest2 : List Nat) :
    decIntNum neg (d :: ds2) (e :: rest2) =
      if d = 48 ∧ (neg = true ∨ ds2 ≠ []) then .bad
      else if e = 101 then
        if neg then
          if digitsVal (d :: ds2) ≤ LLMAX then
            .found (.bint (-(digitsVal (d :: ds2) : Int))) rest2
          else .bad
        else
          if digitsVal (d :: ds2) < LLMAX then
            .found (.bint (digitsVal (d :: ds2) : Int)) rest2
          else .bad
      else .bad := rfl

theorem decIntNum_found_shape {neg : Bool} {ds rest : List Nat} {t : BItem} {out : List Nat}
    (h : decIntNum neg ds rest = .found t out) :
    ∃ d ds2, ds = d :: ds2 ∧ rest = 101 :: out ∧ ¬(d = 48 ∧ (neg = true ∨ ds2 ≠ [])) := by
  cases ds with
  | nil =>
    cases rest with
    | nil => rw [decIntNum_nil_nil] at h; exact DRes.noConfusion h
    | cons c t2 => rw [decIntNum_nil_cons] at h; exact DRes.noConfusion h
  | cons d ds2 =>
    by_cases hd : d = 48 ∧ (neg = true ∨ ds2 ≠ [])
    · cases rest with
      | nil => rw [decIntNum_cons_nil, if_pos hd] at h; exact DRes.noConfusion h
      | cons e rest2 => rw [decIntNum_cons_cons, if_pos hd] at h; exact DRes.noConfusion h
    · cases rest with
      | nil => rw [decIntNum_cons_nil, if_neg hd] at h; exact DRes.noConfusion h
      | cons e rest2 =>
        rw [decIntNum_cons_cons, if_neg hd] at h
        by_cases he : e = 101
        · rw [if_pos he] at h
          refine ⟨d, ds2, rfl, ?_, hd⟩
          rw [he]
          cases neg with
          | false =>
            rw [if_neg (by decide : ¬(false = true))] at h
            by_cases hv : digitsVal (d :: ds2) < LLMAX
            · rw [if_pos hv] at h
              injection h with h1 h2
              rw [h2]
            · rw [if_neg hv] at h
              exact DRes.noConfusion h
          | true =>
            rw [if_pos (by decide : (true = true))] at h
            by_cases hv : digitsVal (d :: ds2) ≤ LLMAX
            · rw [if_pos hv] at h
              injection h with h1 h2
              rw [h2]
            · rw [if_neg hv] at h
              exact DRes.noConfusion h
        · rw [if_neg he] at h
          exact DRes.noConfusion h

theorem decIntNum_shift {neg : Bool} {ds : List Nat} {t : BItem} {out : List Nat}
    (h : decIntNum neg ds (101 :: out) = .found t out) :
    ∀ u, decIntNum neg ds (101 :: u) = .found t u := by
  intro u
  obtain ⟨d, ds2, hds, _, hd⟩ := decIntNum_found_shape h
  subst hds
  rw [decIntNum_cons_cons, if_neg hd, if_pos (rfl : (101 : Nat) = 101)] at h
  rw [decIntNum_cons_cons, if_neg hd, if_pos (rfl : (101 : Nat) = 101)]
  cases neg with
  | false =>
    rw [if_neg (by decide : ¬(false = true))] at h ⊢
    by_cases hv : digitsVal (d :: ds2) < LLMAX
    · rw [if_pos hv] at h ⊢
      injection h with h1 h2
      rw [h1]
    · rw [if_neg hv] at h
      exact DRes.noConfusion h
  | true =>
    rw [if_pos (by decide : (true = true))] at h ⊢
    by_cases hv : digitsVal (d :: ds2) ≤ LLMAX
    · rw [if_pos hv] at h ⊢
      injection h with h1 h2
      rw [h1]
    · rw [if_neg hv] at h
      exact DRes.noConfusion h

theorem decIntNum_digits_more {neg : Bool} {d : Nat} {ds2 : List Nat}
    (hd : ¬(d = 48 ∧ (neg = true ∨ ds2 ≠ []))) (m : Nat) :
    decIntNum neg (d :: ds2.take m) [] = .more := by
  have hd2 : ¬(d = 48 ∧ (neg = true ∨ ds2.take m ≠ [])) := by
    intro hcon
    exact hd ⟨hcon.1, hcon.2.imp id (fun htk hds2 => htk (by rw [hds2]; simp))⟩
  rw [decIntNum_cons_nil, if_neg hd2]

theorem decIntDigits_found {neg : Bool} {r : List Nat} {t : BItem} {out : List Nat}
    (h : decIntDigits neg r = .found t out) :
    ∃ p, r = p ++ out ∧ p ≠ [] ∧
      (∀ u, decIntDigits neg (p ++ u) = .found t u) ∧
      (∀ m, m < p.length → decIntDigits neg (p.take m) = .more) := by
  unfold decIntDigits at h
  obtain ⟨d, ds2, hTW, hDW, hd⟩ := decIntNum_found_shape h
  rw [hTW, hDW] at h
  have hdig : ∀ x ∈ d :: ds2, isDigit x = true := by
    rw [← hTW]
    intro x hx
    exact List.mem_takeWhile_imp hx
  have hr : (d :: ds2) ++ 101 :: out = r := by
    rw [← hTW, ← hDW]
    simp [List.takeWhile_append_dropWhile]
  refine ⟨(d :: ds2) ++ [101], by rw [← hr]; simp, by simp, ?_, ?_⟩
  · intro u
    have hsplit := @takeWhile_split (d :: ds2) (101 :: u) hdig
      (fun c t2 hct => by injection hct with h1 _; rw [← h1]; rfl)
    unfold decIntDigits
    rw [show ((d :: ds2) ++ [101]) ++ u = (d :: ds2) ++ 101 :: u by simp]
    rw [hsplit.1, hsplit.2]
    exact decIntNum_shift h u
  · intro m hm
    have hm2 : m < ds2.length + 2 := by
      simpa using hm
    have htk : ((d :: ds2) ++ [101]).take m = (d :: ds2).take m := by
      rw [List.take_append_eq_append_take]
      have h0 : m - (d :: ds2).length = 0 := by
        simp only [List.length_cons]
        omega
      rw [h0]
      simp
    rw [htk]
    cases m with
    | zero => rfl
    | succ m2 =>
      have htk2 : (d :: ds2).take (m2 + 1) = d :: ds2.take m2 := by simp
      rw [htk2]
      have hdig2 : ∀ x ∈ d :: ds2.take m2, isDigit x = true := by
        intro x hx
        rcases List.mem_cons.mp hx with h1 | h2
        · exact hdig x (by rw [h1]; exact List.mem_cons_self d ds2)
        · exact hdig x (List.mem_cons_of_mem d (List.take_subset m2 ds2 h2))
      have hsplit := @takeWhile_split (d :: ds2.take m2) [] hdig2 (fun c t2 hct => by cases hct)
      unfold decIntDigits
      rw [show d :: ds2.take m2 = (d :: ds2.take m2) ++ [] by simp]
      rw [hsplit.1, hsplit.2]
      exact decIntNum_digits_more hd m2

theorem decInt_found {r : List Nat} {t : BItem} {out : List Nat}
    (h : decInt r = .found t out) :
    ∃ p, r = p ++ out ∧ p ≠ [] ∧
      (∀ u, decInt (p ++ u) = .found t u) ∧
      (∀ m, m < p.length → decInt (p.take m) = .more) := by
  cases r with
  | nil => exact DRes.noConfusion h
  | cons c r2 =>
    rw [show decInt (c :: r2) =
        if c = 45 then decIntDigits true r2 else decIntDigits false (c :: r2) from rfl] at h
    by_cases hc : c = 45
    · rw [if_pos hc] at h
      subst hc
      obtain ⟨p2, hr2, hp2, hext, htr⟩ := decIntDigits_found h
      refine ⟨45 :: p2, by rw [hr2]; rfl, by simp, ?_, ?_⟩
      · intro u
        show decInt (45 :: (p2 ++ u)) = _
        rw [show decInt (45 :: (p2 ++ u)) = decIntDigits true (p2 ++ u) from by
          simp [decInt]]
        exact hext u
      · intro m hm
        cases m with
        | zero => rfl
        | succ m2 =>
          show decInt (45 :: p2.take m2) = .more
          rw [show decInt (45 :: p2.take m2) = decIntDigits true (p2.take m2) from by
            simp [decInt]]
          exact htr m2 (by simpa using hm)
    · rw [if_neg hc] at h
      obtain ⟨p2, hr2, hp2, hext, htr⟩ := decIntDigits_found h
      have hp2c : ∃ p3, p2 = c :: p3 := by
        cases p2 with
        | nil => exact absurd rfl hp2
        | cons a p3 =>
          rw [List.cons_append] at hr2
          injection hr2 with h1 _
          rw [h1]
          exact ⟨p3, rfl⟩
      obtain ⟨p3, hp3⟩ := hp2c
      refine ⟨p2, by rw [← hr2], hp2, ?_, ?_⟩
      · intro u
        rw [hp3]
        show decInt (c :: (p3 ++ u)) = _
        rw [show decInt (c :: (p3 ++ u)) = decIntDigits false (c :: (p3 ++ u)) from by
          simp [decInt, hc]]
        rw [show (c :: (p3 ++ u) : List Nat) = (c :: p3) ++ u from rfl, ← hp3]
        exact hext u
      · intro m hm
        cases m with
        | zero => rfl
        | succ m2 =>
          rw [hp3]
          show decInt (c :: p3.take m2) = .more
          rw [show decInt (c :: p3.take m2) = decIntDigits false (c :: p3.take m2) from by
            simp [decInt, hc]]
          rw [show (c :: p3.take m2 : List Nat) = (c :: p3).take (m2 + 1) from rfl, ← hp3]
          exact htr (m2 + 1) hm

theorem decStrNum_nil (rest : List Nat) : decStrNum [] rest = .bad := rfl

theorem decStrNum_cons_nil (d : Nat) (ds2 : List Nat) : decStrNum (d :: ds2) [] = .more := rfl

theorem decStrNum_cons_cons (d : Nat) (ds2 : List Nat) (e : Nat) (r2 : List Nat) :
    decStrNum (d :: ds2) (e :: r2) =
      if e = 58 then
        if r2.length < digitsVal (d :: ds2) then .more
        else .found (.bstr (r2.take (digitsVal (d :: ds2)))) (r2.drop (digitsVal (d :: ds2)))
      else .bad := rfl

theorem decStr_found {s : List Nat} {t : BItem} {out : List Nat}
    (h : decStr s = .found t out) :
    ∃ p, s = p ++ out ∧ p ≠ [] ∧
      (∀ u, decStr (p ++ u) = .found t u) ∧
      (∀ m, 1 ≤ m → m < p.length → decStr (p.take m) = .more) := by
  unfold decStr at h
  cases hTW : s.takeWhile isDigit with
  | nil =>
    rw [hTW, decStrNum_nil] at h
    exact DRes.noConfusion h
  | cons d ds2 =>
    rw [hTW] at h
    have hdig : ∀ x ∈ d :: ds2, isDigit x = true := by
      rw [← hTW]
      intro x hx
      exact List.mem_takeWhile_imp hx
    cases hDW : s.dropWhile isDigit with
    | nil =>
      rw [hDW, decStrNum_cons_nil] at h
      exact DRes.noConfusion h
    | cons e r2 =>
      rw [hDW, decStrNum_cons_cons] at h
      by_cases he : e = 58
      · rw [if_pos he] at h
        by_cases hlen : r2.length < digitsVal (d :: ds2)
        · rw [if_pos hlen] at h
          exact DRes.noConfusion h
        · rw [if_neg hlen] at h
          injection h with h1 h2
          have hv : digitsVal (d :: ds2) ≤ r2.length := by omega
          have hs : s = (d :: ds2) ++ e :: r2 := by
            rw [← hTW, ← hDW]
            simp [List.takeWhile_append_dropWhile]
          have hlentk : (r2.take (digitsVal (d :: ds2))).length = digitsVal (d :: ds2) := by
            rw [List.length_take]
            omega
          refine ⟨(d :: ds2) ++ 58 :: r2.take (digitsVal (d :: ds2)), ?_, by simp, ?_, ?_⟩
          · rw [hs, he, ← h2]
            simp [List.take_append_drop]
          · intro u
            have hsplit := @takeWhile_split (d :: ds2)
              (58 :: (r2.take (digitsVal (d :: ds2)) ++ u)) hdig
              (fun c t2 hct => by injection hct with hc1 _; rw [← hc1]; rfl)
            unfold decStr
            rw [show ((d :: ds2) ++ 58 :: r2.take (digitsVal (d :: ds2))) ++ u
                = (d :: ds2) ++ 58 :: (r2.take (digitsVal (d :: ds2)) ++ u) by simp]
            rw [hsplit.1, hsplit.2, decStrNum_cons_cons, if_pos rfl]
            rw [if_neg (by rw [List.length_append, hlentk]; omega)]
            have eTake : (r2.take (digitsVal (d :: ds2)) ++ u).take (digitsVal (d :: ds2))
                = r2.take (digitsVal (d :: ds2)) := by
              rw [List.take_append_eq_append_take, hlentk, Nat.sub_self, List.take_zero,
                List.append_nil, List.take_take]
              simp
            have eDrop : (r2.take (digitsVal (d :: ds2)) ++ u).drop (digitsVal (d :: ds2)) = u := by
              rw [List.drop_append_eq_append_drop, hlentk, Nat.sub_self, List.drop_zero,
                List.drop_eq_nil_of_le hlentk.le]
              simp
            rw [eTake, eDrop, h1]
          · intro m hm1 hmlt
            have hplen : ((d :: ds2) ++ 58 :: r2.take (digitsVal (d :: ds2))).length
                = ds2.length + 2 + digitsVal (d :: ds2) := by
              simp only [List.length_append, List.length_cons, hlentk]
              omega
            rw [hplen] at hmlt
            by_cases hz : m ≤ ds2.length + 1
            · have htk : ((d :: ds2) ++ 58 :: r2.take (digitsVal (d :: ds2))).take m
                  = (d :: ds2).take m := by
                rw [List.take_append_eq_append_take]
                have h0 : m - (d :: ds2).length = 0 := by
                  simp only [List.length_cons]
                  omega
                rw [h0]
                simp
              rw [htk]
              cases m with
              | zero => omega
              | succ m2 =>
                have htk2 : (d :: ds2).take (m2 + 1) = d :: ds2.take m2 := by simp
                rw [htk2]
                have hdig2 : ∀ x ∈ d :: ds2.take m2, isDigit x = true := by
                  intro x hx
                  rcases List.mem_cons.mp hx with hx1 | hx2
                  · exact hdig x (by rw [hx1]; exact List.mem_cons_self d ds2)
                  · exact hdig x (List.mem_cons_of_mem d (List.take_subset m2 ds2 hx2))
                have hsplit := @takeWhile_split (d :: ds2.take m2) [] hdig2
                  (fun c t2 hct => by cases hct)
                unfold decStr
                rw [show d :: ds2.take m2 = (d :: ds2.take m2) ++ [] by simp]
                rw [hsplit.1, hsplit.2, decStrNum_cons_nil]
            · obtain ⟨j2, hj2⟩ : ∃ j2, m - (d :: ds2).length = j2 + 1 := by
                refine ⟨m - ds2.length - 2, ?_⟩
                simp only [List.length_cons]
                omega
              have hj2v : j2 < digitsVal (d :: ds2) := by
                simp only [List.length_cons] at hj2
                omega
              have htk : ((d :: ds2) ++ 58 :: r2.take (digitsVal (d :: ds2))).take m
                  = (d :: ds2) ++ 58 :: (r2.take (digitsVal (d :: ds2))).take j2 := by
                rw [List.take_append_eq_append_take, hj2,
                  List.take_of_length_le (by simp only [List.length_cons]; omega),
                  List.take_succ_cons]
              rw [htk]
              have hsplit := @takeWhile_split (d :: ds2)
                (58 :: (r2.take (digitsVal (d :: ds2))).take j2) hdig
                (fun c t2 hct => by injection hct with hc1 _; rw [← hc1]; rfl)
              unfold decStr
              rw [show (d :: ds2) ++ 58 :: (r2.take (digitsVal (d :: ds2))).take j2
                  = (d :: ds2) ++ 58 :: (r2.take (digitsVal (d :: ds2))).take j2 from rfl]
              rw [hsplit.1, hsplit.2, decStrNum_cons_cons, if_pos rfl]
              rw [if_pos (by rw [List.length_take, hlentk]; omega)]
      · rw [if_neg he] at h
        exact DRes.noConfusion h

theorem isDigit_iff {c : Nat} : isDigit c = true ↔ 48 ≤ c ∧ c ≤ 57 := by
  simp [isDigit]

/-! Branch-selection equations for the decoder dispatch. -/

theorem bdec_cons_105 (f : Nat) (r : List Nat) : bdec (f+1) (105 :: r) = decInt r := rfl

theorem bdec_cons_108 (f : Nat) (r : List Nat) :
    bdec (f+1) (108 :: r) = listStep (bdecSeq f r) := rfl

theorem bdec_cons_100 (f : Nat) (r : List Nat) :
    bdec (f+1) (100 :: r) = dictStep (bdecPairs f r) := rfl

theorem bdec_cons_digit (f : Nat) {c : Nat} (hc : isDigit c = true) (r : List Nat) :
    bdec (f+1) (c :: r) = decStr (c :: r) := by
  obtain ⟨hc1, hc2⟩ := isDigit_iff.mp hc
  rw [bdec_cons, if_neg (by omega), if_neg (by omega), if_neg (by omega), if_pos hc]

theorem bdec_cons_other (f : Nat) {c : Nat} (h105 : ¬ c = 105) (h108 : ¬ c = 108)
    (h100 : ¬ c = 100) (hd : ¬ isDigit c = true) (r : List Nat) :
    bdec (f+1) (c :: r) = .bad := by
  rw [bdec_cons, if_neg h105, if_neg h108, if_neg h100, if_neg hd]

theorem bdecSeq_cons_101 (f : Nat) (r : List Nat) : bdecSeq (f+1) (101 :: r) = .found [] r := rfl

theorem bdecSeq_cons_ne (f : Nat) {c : Nat} (hc : ¬ c = 101) (r : List Nat) :
    bdecSeq (f+1) (c :: r) = seqComb (bdec f (c :: r)) (bdecSeq f) := by
  rw [bdecSeq_cons, if_neg hc]

theorem bdecPairs_cons_101 (f : Nat) (r : List Nat) :
    bdecPairs (f+1) (101 :: r) = .found [] r := rfl

theorem bdecPairs_cons_ne (f : Nat) {c : Nat} (hc : ¬ c = 101) (r : List Nat) :
    bdecPairs (f+1) (c :: r) = pairComb (bdec f (c :: r)) (bdec f) (bdecPairs f) := by
  rw [bdecPairs_cons, if_neg hc]

/-- Raising the fuel by one changes nothing once the decoder has settled
on a found or invalid outcome: only the incomplete outcome can be a fuel
artefact. -/
theorem fuel_succ_eq : ∀ f : Nat,
    (∀ s, bdec f s ≠ .more → bdec (f + 1) s = bdec f s) ∧
    (∀ s, bdecSeq f s ≠ .more → bdecSeq (f + 1) s = bdecSeq f s) ∧
    (∀ s, bdecPairs f s ≠ .more → bdecPairs (f + 1) s = bdecPairs f s) := by
  intro f
  induction f with
  | zero =>
    exact ⟨fun s h => absurd rfl h, fun s h => absurd rfl h, fun s h => absurd rfl h⟩
  | succ f ih =>
    obtain ⟨ih1, ih2, ih3⟩ := ih
    refine ⟨?_, ?_, ?_⟩
    · intro s h
      cases s with
      | nil => exact absurd (bdec_nil (f+1)) h
      | cons c r =>
        by_cases h105 : c = 105
        · subst h105; rfl
        by_cases h108 : c = 108
        · subst h108
          rw [bdec_cons_108] at h
          rw [bdec_cons_108, bdec_cons_108]
          have hne : bdecSeq f r ≠ .more := by
            intro he
            rw [he] at h
            exact absurd rfl h
          rw [ih2 r hne]
        by_cases h100 : c = 100
        · subst h100
          rw [bdec_cons_100] at h
          rw [bdec_cons_100, bdec_cons_100]
          have hne : bdecPairs f r ≠ .more := by
            intro he
            rw [he] at h
            exact absurd rfl h
          rw [ih3 r hne]
        by_cases hdg : isDigit c = true
        · rw [bdec_cons_digit (f+1) hdg, bdec_cons_digit f hdg]
        · rw [bdec_cons_other (f+1) h105 h108 h100 hdg, bdec_cons_other f h105 h108 h100 hdg]
    · intro s h
      cases s with
      | nil => exact absurd (bdecSeq_nil (f+1)) h
      | cons c r =>
        by_cases h101 : c = 101
        · subst h101; rfl
        rw [bdecSeq_cons_ne f h101] at h
        rw [bdecSeq_cons_ne (f+1) h101, bdecSeq_cons_ne f h101]
        cases hd : bdec f (c :: r) with
        | found t rest =>
          rw [hd] at h
          rw [ih1 (c :: r) (by rw [hd]; simp), hd]
          simp only [seqComb] at h ⊢
          cases hs : bdecSeq f rest with
          | found xs rest2 =>
            rw [ih2 rest (by rw [hs]; simp), hs]
          | more =>
            rw [hs] at h
            exact absurd rfl h
          | bad =>
            rw [ih2 rest (by rw [hs]; simp), hs]
        | more =>
          rw [hd] at h
          exact absurd rfl h
        | bad =>
          rw [ih1 (c :: r) (by rw [hd]; simp), hd]
          rfl
    · intro s h
      cases s with
      | nil => exact absurd (bdecPairs_nil (f+1)) h
      | cons c r =>
        by_cases h101 : c = 101
        · subst h101; rfl
        rw [bdecPairs_cons_ne f h101] at h
        rw [bdecPairs_cons_ne (f+1) h101, bdecPairs_cons_ne f h101]
        cases hd : bdec f (c :: r) with
        | found t rest =>
          rw [hd] at h
          rw [ih1 (c :: r) (by rw [hd]; simp), hd]
          cases t with
          | bstr key =>
            simp only [pairComb] at h ⊢
            cases hv : bdec f rest with
            | found v rest2 =>
              rw [hv] at h
              rw [ih1 rest (by rw [hv]; simp), hv]
              dsimp only at h ⊢
              cases hp : bdecPairs f rest2 with
              | found ps rest3 =>
                rw [ih3 rest2 (by rw [hp]; simp), hp]
              | more =>
                rw [hp] at h
                exact absurd rfl h
              | bad =>
                rw [ih3 rest2 (by rw [hp]; simp), hp]
            | more =>
              rw [hv] at h
              exact absurd rfl h
            | bad =>
              rw [ih1 rest (by rw [hv]; simp), hv]
          | bint i => rfl
          | blist xs => rfl
          | bdict ps => rfl
        | more =>
          rw [hd] at h
          exact absurd rfl h
        | bad =>
          rw [ih1 (c :: r) (by rw [hd]; simp), hd]
          rfl

/-- Found results are stable under raising the fuel. -/
theorem bdec_mono {f g : Nat} (hfg : f ≤ g) {s : List Nat} (h : bdec f s ≠ .more) :
    bdec g s = bdec f s := by
  induction g, hfg using Nat.le_induction with
  | base => rfl
  | succ g hfg ih =>
    rw [(fuel_succ_eq g).1 s (by rw [ih]; exact h), ih]

theorem bdecSeq_mono {f g : Nat} (hfg : f ≤ g) {s : List Nat} (h : bdecSeq f s ≠ .more) :
    bdecSeq g s = bdecSeq f s := by
  induction g, hfg using Nat.le_induction with
  | base => rfl
  | succ g hfg ih =>
    rw [(fuel_succ_eq g).2.1 s (by rw [ih]; exact h), ih]

theorem bdecPairs_mono {f g : Nat} (hfg : f ≤ g) {s : List Nat} (h : bdecPairs f s ≠ .more) :
    bdecPairs g s = bdecPairs f s := by
  induction g, hfg using Nat.le_induction with
  | base => rfl
  | succ g hfg ih =>
    rw [(fuel_succ_eq g).2.2 s (by rw [ih]; exact h), ih]

/-- The decoder is deterministic across fuels: two found results on the
same input agree. -/
theorem bdec_det {f g : Nat} {s : List Nat} {t t2 : BItem} {r r2 : List Nat}
    (h1 : bdec f s = .found t r) (h2 : bdec g s = .found t2 r2) : t = t2 ∧ r = r2 := by
  have e1 : bdec (max f g) s = .found t r := by
    rw [bdec_mono (le_max_left f g) (by rw [h1]; simp), h1]
  have e2 : bdec (max f g) s = .found t2 r2 := by
    rw [bdec_mono (le_max_right f g) (by rw [h2]; simp), h2]
  rw [e1] at e2
  injection e2 with a b
  exact ⟨a, b⟩

/-- A found result on some fuel rules out an invalid result on any fuel. -/
theorem bdec_found_not_bad {f g : Nat} {s : List Nat} {t : BItem} {r : List Nat}
    (h1 : bdec f s = .found t r) (h2 : bdec g s = .bad) : False := by
  have e1 : bdec (max f g) s = .found t r := by
    rw [bdec_mono (le_max_left f g) (by rw [h1]; simp), h1]
  have e2 : bdec (max f g) s = .bad := by
    rw [bdec_mono (le_max_right f g) (by rw [h2]; simp), h2]
  rw [e1] at e2
  exact DRes.noConfusion e2

theorem take_append_left {A B : List Nat} {m : Nat} (h : m ≤ A.length) :
    (A ++ B).take m = A.take m := by
  rw [List.take_append_eq_append_take]
  have h0 : m - A.length = 0 := by omega
  rw [h0]
  simp

theorem take_append_right {A B : List Nat} {m : Nat} (h : A.length ≤ m) :
    (A ++ B).take m = A ++ B.take (m - A.length) := by
  rw [List.take_append_eq_append_take, List.take_of_length_le h]

theorem cons_eq_append_head {c : Nat} {r p rest : List Nat} (hp : p ≠ [])
    (h : c :: r = p ++ rest) : ∃ q, p = c :: q := by
  cases p with
  | nil => exact absurd rfl hp
  | cons a q =>
    rw [List.cons_append] at h
    injection h with h1 _
    exact ⟨q, by rw [h1]⟩

/-- The central parsing metatheorem: a found result determines a nonempty
consumed segment p of the input; the result is a function of p alone
(running the same fuel on p followed by anything yields the same item
with that suffix unconsumed), and running any fuel on a strict front
part of p yields the incomplete outcome, never the invalid one. -/
theorem found_pack : ∀ f : Nat,
    (∀ s t rest, bdec f s = .found t rest →
      ∃ p, s = p ++ rest ∧ p ≠ [] ∧
        (∀ u, bdec f (p ++ u) = .found t u) ∧
        (∀ g m, m < p.length → bdec g (p.take m) = .more)) ∧
    (∀ s xs rest, bdecSeq f s = .found xs rest →
      ∃ p, s = p ++ rest ∧ p ≠ [] ∧
        (∀ u, bdecSeq f (p ++ u) = .found xs u) ∧
        (∀ g m, m < p.length → bdecSeq g (p.take m) = .more)) ∧
    (∀ s ps rest, bdecPairs f s = .found ps rest →
      ∃ p, s = p ++ rest ∧ p ≠ [] ∧
        (∀ u, bdecPairs f (p ++ u) = .found ps u) ∧
        (∀ g m, m < p.length → bdecPairs g (p.take m) = .more)) := by
  intro f
  induction f with
  | zero =>
    refine ⟨?_, ?_, ?_⟩
    · intro s t rest h; exact DRes.noConfusion h
    · intro s xs rest h; exact LRes.noConfusion h
    · intro s ps rest h; exact PRes.noConfusion h
  | succ f ih =>
    obtain ⟨ih1, ih2, ih3⟩ := ih
    refine ⟨?_, ?_, ?_⟩
    · intro s t rest h
      cases s with
      | nil =>
        rw [bdec_nil] at h
        exact DRes.noConfusion h
      | cons c r =>
        by_cases h105 : c = 105
        · subst h105
          rw [bdec_cons_105] at h
          obtain ⟨pI, hrI, hpI, hext, htr⟩ := decInt_found h
          refine ⟨105 :: pI, by rw [hrI]; rfl, by simp, ?_, ?_⟩
          · intro u
            rw [show (105 :: pI) ++ u = 105 :: (pI ++ u) from rfl, bdec_cons_105]
            exact hext u
          · intro g m hm
            cases m with
            | zero => simpa using bdec_nil g
            | succ m2 =>
              rw [show (105 :: pI).take (m2+1) = 105 :: pI.take m2 from by simp]
              cases g with
              | zero => exact bdec_zero _
              | succ g2 =>
                rw [bdec_cons_105]
                exact htr m2 (by simpa using hm)
        by_cases h108 : c = 108
        · subst h108
          rw [bdec_cons_108] at h
          cases hseq : bdecSeq f r with
          | found xs rest1 =>
            rw [hseq] at h
            dsimp only [listStep] at h
            injection h with h1 h2
            subst h1
            rw [h2] at hseq
            obtain ⟨p2, hr2, hp2, hext, htr⟩ := ih2 r xs rest hseq
            refine ⟨108 :: p2, by rw [hr2]; rfl, by simp, ?_, ?_⟩
            · intro u
              rw [show (108 :: p2) ++ u = 108 :: (p2 ++ u) from rfl, bdec_cons_108, hext u]
              rfl
            · intro g m hm
              cases m with
              | zero => simpa using bdec_nil g
              | succ m2 =>
                rw [show (108 :: p2).take (m2+1) = 108 :: p2.take m2 from by simp]
                cases g with
                | zero => exact bdec_zero _
                | succ g2 =>
                  rw [bdec_cons_108, htr g2 m2 (by simpa using hm)]
                  rfl
          | more => rw [hseq] at h; exact DRes.noConfusion h
          | bad => rw [hseq] at h; exact DRes.noConfusion h
        by_cases h100 : c = 100
        · subst h100
          rw [bdec_cons_100] at h
          cases hpq : bdecPairs f r with
          | found ps rest1 =>
            rw [hpq] at h
            dsimp only [dictStep] at h
            injection h with h1 h2
            subst h1
            rw [h2] at hpq
            obtain ⟨p2, hr2, hp2, hext, htr⟩ := ih3 r ps rest hpq
            refine ⟨100 :: p2, by rw [hr2]; rfl, by simp, ?_, ?_⟩
            · intro u
              rw [show (100 :: p2) ++ u = 100 :: (p2 ++ u) from rfl, bdec_cons_100, hext u]
              rfl
            · intro g m hm
              cases m with
              | zero => simpa using bdec_nil g
              | succ m2 =>
                rw [show (100 :: p2).take (m2+1) = 100 :: p2.take m2 from by simp]
                cases g with
                | zero => exact bdec_zero _
                | succ g2 =>
                  rw [bdec_cons_100, htr g2 m2 (by simpa using hm)]
                  rfl
          | more => rw [hpq] at h; exact DRes.noConfusion h
          | bad => rw [hpq] at h; exact DRes.noConfusion h
        by_cases hdg : isDigit c = true
        · rw [bdec_cons_digit f hdg] at h
          obtain ⟨pS, hrS, hpS, hext, htr⟩ := decStr_found h
          obtain ⟨pS2, hps2⟩ := cons_eq_append_head hpS hrS
          refine ⟨pS, hrS, hpS, ?_, ?_⟩
          · intro u
            have hx := hext u
            rw [hps2, List.cons_append] at hx ⊢
            rw [bdec_cons_digit f hdg]
            exact hx
          · intro g m hm
            cases m with
            | zero => simpa using bdec_nil g
            | succ m2 =>
              cases g with
              | zero => exact bdec_zero _
              | succ g2 =>
                have hx := htr (m2+1) (by omega) hm
                have htkc : pS.take (m2+1) = c :: pS2.take m2 := by rw [hps2]; simp
                rw [htkc] at hx ⊢
                rw [bdec_cons_digit g2 hdg]
                exact hx
        · rw [bdec_cons_other f h105 h108 h100 hdg] at h
          exact DRes.noConfusion h
    · intro s xs rest h
      cases s with
      | nil =>
        rw [bdecSeq_nil] at h
        exact LRes.noConfusion h
      | cons c r =>
        by_cases h101 : c = 101
        · subst h101
          rw [bdecSeq_cons_101] at h
          injection h with h1 h2
          subst h1
          subst h2
          refine ⟨[101], rfl, by simp, ?_, ?_⟩
          · intro u
            exact bdecSeq_cons_101 f u
          · intro g m hm
            have hm0 : m = 0 := by simpa using hm
            subst hm0
            simpa using bdecSeq_nil g
        · rw [bdecSeq_cons_ne f h101] at h
          cases hd : bdec f (c :: r) with
          | found t1 rest1 =>
            rw [hd] at h
            dsimp only [seqComb] at h
            cases hs : bdecSeq f rest1 with
            | found xs2 rest2 =>
              rw [hs] at h
              injection h with h1 h2
              subst h1
              rw [h2] at hs
              obtain ⟨p1, hr1, hp1, hext1, htr1⟩ := ih1 (c :: r) t1 rest1 hd
              obtain ⟨p2, hr2, hp2, hext2, htr2⟩ := ih2 rest1 xs2 rest hs
              obtain ⟨p1t, hp1c⟩ := cons_eq_append_head hp1 hr1
              refine ⟨p1 ++ p2, by rw [hr1, hr2]; simp, by simp [hp1], ?_, ?_⟩
              · intro u
                have hx1 := hext1 (p2 ++ u)
                rw [hp1c, List.cons_append] at hx1
                rw [List.append_assoc, hp1c, List.cons_append, bdecSeq_cons_ne f h101, hx1]
                dsimp only [seqComb]
                rw [hext2 u]
              · intro g m hm
                cases m with
                | zero => simpa using bdecSeq_nil g
                | succ m2 =>
                  cases g with
                  | zero => exact bdecSeq_zero _
                  | succ g2 =>
                    simp only [List.length_append] at hm
                    by_cases hlt : m2 + 1 < p1.length
                    · have hx := htr1 g2 (m2+1) hlt
                      have htk : (p1 ++ p2).take (m2+1) = p1.take (m2+1) :=
                        take_append_left (by omega)
                      have htkc : p1.take (m2+1) = c :: p1t.take m2 := by rw [hp1c]; simp
                      rw [htkc] at hx
                      rw [htk, htkc, bdecSeq_cons_ne g2 h101, hx]
                      rfl
                    · have hle : p1.length ≤ m2 + 1 := by omega
                      have hm2 : m2 + 1 - p1.length < p2.length := by omega
                      have htk : (p1 ++ p2).take (m2+1)
                          = p1 ++ p2.take (m2+1-p1.length) := take_append_right hle
                      rw [htk]
                      generalize hj : m2 + 1 - p1.length = j at hm2 ⊢
                      have hx1 := hext1 (p2.take j)
                      have htr2j := htr2 g2 j hm2
                      rw [hp1c, List.cons_append] at hx1 ⊢
                      rw [bdecSeq_cons_ne g2 h101]
                      cases hv2 : bdec g2 (c :: (p1t ++ p2.take j)) with
                      | found t3 r3 =>
                        obtain ⟨hdt, hdr⟩ := bdec_det hv2 hx1
                        subst hdt
                        subst hdr
                        dsimp only [seqComb]
                        rw [htr2j]
                      | more => rfl
                      | bad => exact (bdec_found_not_bad hx1 hv2).elim
            | more => rw [hs] at h; exact LRes.noConfusion h
            | bad => rw [hs] at h; exact LRes.noConfusion h
          | more =>
            rw [hd] at h
            exact LRes.noConfusion h
          | bad =>
            rw [hd] at h
            exact LRes.noConfusion h
    · intro s ps rest h
      cases s with
      | nil =>
        rw [bdecPairs_nil] at h
        exact PRes.noConfusion h
      | cons c r =>
        by_cases h101 : c = 101
        · subst h101
          rw [bdecPairs_cons_101] at h
          injection h with h1 h2
          subst h1
          subst h2
          refine ⟨[101], rfl, by simp, ?_, ?_⟩
          · intro u
            exact bdecPairs_cons_101 f u
          · intro g m hm
            have hm0 : m = 0 := by simpa using hm
            subst hm0
            simpa using bdecPairs_nil g
        · rw [bdecPairs_cons_ne f h101] at h
          cases hd : bdec f (c :: r) with
          | found t1 rest1 =>
            rw [hd] at h
            cases t1 with
            | bstr key =>
              dsimp only [pairComb] at h
              cases hv : bdec f rest1 with
              | found v rest2 =>
                rw [hv] at h
                dsimp only at h
                cases hpp : bdecPairs f rest2 with
                | found ps2 rest3 =>
                  rw [hpp] at h
                  injection h with h1 h2
                  subst h1
                  rw [h2] at hpp
                  obtain ⟨p1, hr1, hp1, hext1, htr1⟩ := ih1 (c :: r) (.bstr key) rest1 hd
                  obtain ⟨p2, hr2, hp2, hext2, htr2⟩ := ih1 rest1 v rest2 hv
                  obtain ⟨p3, hr3, hp3, hext3, htr3⟩ := ih3 rest2 ps2 rest hpp
                  obtain ⟨p1t, hp1c⟩ := cons_eq_append_head hp1 hr1
                  refine ⟨p1 ++ (p2 ++ p3), by rw [hr1, hr2, hr3]; simp, by simp [hp1], ?_, ?_⟩
                  · intro u
                    have hx1 := hext1 (p2 ++ (p3 ++ u))
                    rw [hp1c, List.cons_append] at hx1
                    rw [List.append_assoc, List.append_assoc, hp1c, List.cons_append,
                      bdecPairs_cons_ne f h101, hx1]
                    dsimp only [pairComb]
                    rw [hext2 (p3 ++ u)]
                    dsimp only
                    rw [hext3 u]
                  · intro g m hm
                    cases m with
                    | zero => simpa using bdecPairs_nil g
                    | succ m2 =>
                      cases g with
                      | zero => exact bdecPairs_zero _
                      | succ g2 =>
                        simp only [List.length_append] at hm
                        by_cases hltA : m2 + 1 < p1.length
                        · have hx := htr1 g2 (m2+1) hltA
                          have htk : (p1 ++ (p2 ++ p3)).take (m2+1) = p1.take (m2+1) :=
                            take_append_left (by omega)
                          have htkc : p1.take (m2+1) = c :: p1t.take m2 := by rw [hp1c]; simp
                          rw [htkc] at hx
                          rw [htk, htkc, bdecPairs_cons_ne g2 h101, hx]
                          rfl
                        · have hle : p1.length ≤ m2 + 1 := by omega
                          have htk : (p1 ++ (p2 ++ p3)).take (m2+1)
                              = p1 ++ (p2 ++ p3).take (m2+1-p1.length) := take_append_right hle
                          by_cases hltB : m2 + 1 - p1.length < p2.length
                          · have htkB : (p2 ++ p3).take (m2+1-p1.length)
                                = p2.take (m2+1-p1.length) := take_append_left (by omega)
                            rw [htk, htkB]
                            generalize hj : m2 + 1 - p1.length = j at hltB ⊢
                            have hx1 := hext1 (p2.take j)
                            have htr2j := htr2 g2 j hltB
                            rw [hp1c, List.cons_append] at hx1 ⊢
                            rw [bdecPairs_cons_ne g2 h101]
                            cases hv2 : bdec g2 (c :: (p1t ++ p2.take j)) with
                            | found t3 r3 =>
                              obtain ⟨hdt, hdr⟩ := bdec_det hv2 hx1
                              subst hdt
                              subst hdr
                              dsimp only [pairComb]
                              rw [htr2j]
                            | more => rfl
                            | bad => exact (bdec_found_not_bad hx1 hv2).elim
                          · have hleB : p2.length ≤ m2 + 1 - p1.length := by omega
                            have hm3 : m2 + 1 - p1.length - p2.length < p3.length := by omega
                            have htkB : (p2 ++ p3).take (m2+1-p1.length)
                                = p2 ++ p3.take (m2+1-p1.length-p2.length) :=
                              take_append_right hleB
                            rw [htk, htkB]
                            generalize hj : m2 + 1 - p1.length - p2.length = j at hm3 ⊢
                            have hx1 := hext1 (p2 ++ p3.take j)
                            have hx2 := hext2 (p3.take j)
                            have htr3j := htr3 g2 j hm3
                            rw [hp1c, List.cons_append] at hx1 ⊢
                            rw [bdecPairs_cons_ne g2 h101]
                            cases hv2 : bdec g2 (c :: (p1t ++ (p2 ++ p3.take j))) with
                            | found t3 r3 =>
                              obtain ⟨hdt, hdr⟩ := bdec_det hv2 hx1
                              subst hdt
                              subst hdr
                              dsimp only [pairComb]
                              cases hv3 : bdec g2 (p2 ++ p3.take j) with
                              | found t4 r4 =>
                                obtain ⟨hdt4, hdr4⟩ := bdec_det hv3 hx2
                                subst hdt4
                                subst hdr4
                                dsimp only
                                rw [htr3j]
                              | more => rfl
                              | bad => exact (bdec_found_not_bad hx2 hv3).elim
                            | more => rfl
                            | bad => exact (bdec_found_not_bad hx1 hv2).elim
                | more => rw [hpp] at h; exact PRes.noConfusion h
                | bad => rw [hpp] at h; exact PRes.noConfusion h
              | more =>
                rw [hv] at h
                exact PRes.noConfusion h
              | bad =>
                rw [hv] at h
                exact PRes.noConfusion h
            | bint i => exact PRes.noConfusion h
            | blist xs2 => exact PRes.noConfusion h
            | bdict ps2 => exact PRes.noConfusion h
          | more =>
            rw [hd] at h
            exact PRes.noConfusion h
          | bad =>
            rw [hd] at h
            exact PRes.noConfusion h

/-! Round trip: decoding an encoded item succeeds identically with any
trailing bytes left unconsumed. -/

theorem decStr_enc (s u : List Nat) :
    decStr ((natDigits s.length ++ 58 :: s) ++ u) = .found (.bstr s) u := by
  have hdig := natDigits_isDigit s.length
  have hsplit := @takeWhile_split (natDigits s.length) (58 :: (s ++ u)) hdig
    (fun c t2 hct => by injection hct with h1 _; rw [← h1]; rfl)
  unfold decStr
  rw [show (natDigits s.length ++ 58 :: s) ++ u = natDigits s.length ++ 58 :: (s ++ u) by simp]
  rw [hsplit.1, hsplit.2]
  obtain ⟨d, ds, hnd⟩ := List.exists_cons_of_ne_nil (natDigits_ne_nil s.length)
  rw [hnd, decStrNum_cons_cons, if_pos rfl]
  rw [show digitsVal (d :: ds) = s.length from by rw [← hnd, digitsVal_natDigits]]
  rw [if_neg (by rw [List.length_append]; omega), List.take_left, List.drop_left]

theorem enc_bstr_dec (s u : List Nat) {f : Nat} (hf : 1 ≤ f) :
    bdec f ((natDigits s.length ++ 58 :: s) ++ u) = .found (.bstr s) u := by
  match f, hf with
  | f2+1, _ =>
    obtain ⟨d, ds, hnd⟩ := List.exists_cons_of_ne_nil (natDigits_ne_nil s.length)
    have hdigd : isDigit d = true :=
      natDigits_isDigit s.length d (by rw [hnd]; exact List.mem_cons_self _ _)
    have hshape : (natDigits s.length ++ 58 :: s) ++ u = d :: (ds ++ 58 :: (s ++ u)) := by
      rw [hnd]; simp
    rw [hshape, bdec_cons_digit f2 hdigd,
      show d :: (ds ++ 58 :: (s ++ u)) = (natDigits s.length ++ 58 :: s) ++ u from by
        rw [hnd]; simp]
    exact decStr_enc s u

theorem decInt_enc (i : Int) (hlo : -(LLMAX : Int) ≤ i) (hhi : i < LLMAX) (u : List Nat) :
    decInt (intChars i ++ 101 :: u) = .found (.bint i) u := by
  by_cases hneg : i < 0
  · have hcast : (i.natAbs : Int) = -i := by omega
    rw [show intChars i = 45 :: natDigits i.natAbs from by rw [intChars, if_pos hneg]]
    rw [show (45 :: natDigits i.natAbs) ++ 101 :: u
        = 45 :: (natDigits i.natAbs ++ 101 :: u) from rfl]
    rw [show decInt (45 :: (natDigits i.natAbs ++ 101 :: u))
        = decIntDigits true (natDigits i.natAbs ++ 101 :: u) from rfl]
    unfold decIntDigits
    have hdig := natDigits_isDigit i.natAbs
    have hsplit := @takeWhile_split (natDigits i.natAbs) (101 :: u) hdig
      (fun c t2 hct => by injection hct with h1 _; rw [← h1]; rfl)
    rw [hsplit.1, hsplit.2]
    obtain ⟨d, ds, hnd⟩ := List.exists_cons_of_ne_nil (natDigits_ne_nil i.natAbs)
    have hpos : 1 ≤ i.natAbs := by omega
    have hd48 : ¬ d = 48 := by
      have hh := natDigits_head_ne_48 hpos
      rw [hnd] at hh
      simp only [List.head?_cons, ne_eq, Option.some.injEq] at hh
      exact fun he => hh (by rw [he])
    rw [hnd, decIntNum_cons_cons,
      if_neg (by rintro ⟨h48, _⟩; exact hd48 h48),
      if_pos (rfl : (101 : Nat) = 101), if_pos (by decide : (true = true))]
    have hval : digitsVal (d :: ds) = i.natAbs := by rw [← hnd, digitsVal_natDigits]
    rw [hval, if_pos (by omega : i.natAbs ≤ LLMAX)]
    rw [show (-(i.natAbs : Int)) = i from by omega]
  · have hge : 0 ≤ i := by omega
    have hcast : (i.natAbs : Int) = i := by omega
    rw [show intChars i = natDigits i.natAbs from by rw [intChars, if_neg hneg]]
    obtain ⟨d, ds, hnd⟩ := List.exists_cons_of_ne_nil (natDigits_ne_nil i.natAbs)
    have hdigd : isDigit d = true :=
      natDigits_isDigit i.natAbs d (by rw [hnd]; exact List.mem_cons_self _ _)
    have hd45 : ¬ d = 45 := by
      obtain ⟨h1, h2⟩ := isDigit_iff.mp hdigd
      omega
    rw [show natDigits i.natAbs ++ 101 :: u = d :: (ds ++ 101 :: u) from by rw [hnd]; simp]
    rw [show decInt (d :: (ds ++ 101 :: u))
        = decIntDigits false (d :: (ds ++ 101 :: u)) from by
      unfold decInt
      dsimp only
      rw [if_neg hd45]]
    rw [show (d : Nat) :: (ds ++ 101 :: u) = natDigits i.natAbs ++ 101 :: u from by
      rw [hnd]; simp]
    unfold decIntDigits
    have hdig := natDigits_isDigit i.natAbs
    have hsplit := @takeWhile_split (natDigits i.natAbs) (101 :: u) hdig
      (fun c t2 hct => by injection hct with h1 _; rw [← h1]; rfl)
    rw [hsplit.1, hsplit.2, hnd, decIntNum_cons_cons]
    have hcond : ¬ (d = 48 ∧ (false = true ∨ ds ≠ [])) := by
      rintro ⟨h48, hor⟩
      rcases hor with h1 | h2
      · exact absurd h1 (by decide)
      · by_cases h1a : 1 ≤ i.natAbs
        · have hh := natDigits_head_ne_48 h1a
          rw [hnd] at hh
          simp only [List.head?_cons, ne_eq, Option.some.injEq] at hh
          exact hh (by rw [h48])
        · have hz : i.natAbs = 0 := by omega
          rw [hz, natDigits_lt10 (by omega)] at hnd
          injection hnd with ha hb
          exact h2 hb.symm
    rw [if_neg hcond, if_pos (rfl : (101 : Nat) = 101),
      if_neg (by decide : ¬ (false = true))]
    have hval : digitsVal (d :: ds) = i.natAbs := by rw [← hnd, digitsVal_natDigits]
    rw [hval, if_pos (by omega : i.natAbs < LLMAX)]
    rw [show ((i.natAbs : Int)) = i from hcast]

theorem enc_bint_dec (i : Int) (hlo : -(LLMAX : Int) ≤ i) (hhi : i < LLMAX)
    (u : List Nat) {f : Nat} (hf : 1 ≤ f) :
    bdec f (encItem (.bint i) ++ u) = .found (.bint i) u := by
  match f, hf with
  | f2+1, _ =>
    rw [show encItem (.bint i) ++ u = 105 :: (intChars i ++ 101 :: u) from by
      simp [encItem]]
    rw [bdec_cons_105]
    exact decInt_enc i hlo hhi u

theorem encItem_head (t : BItem) : ∃ c r0, encItem t = c :: r0 ∧ ¬ c = 101 := by
  cases t with
  | bstr s =>
    obtain ⟨d, ds, hnd⟩ := List.exists_cons_of_ne_nil (natDigits_ne_nil s.length)
    have hdg := natDigits_isDigit s.length d (by rw [hnd]; exact List.mem_cons_self _ _)
    obtain ⟨h1, h2⟩ := isDigit_iff.mp hdg
    exact ⟨d, ds ++ 58 :: s, by simp [encItem, hnd], by omega⟩
  | bint i => exact ⟨105, intChars i ++ [101], by simp [encItem], by decide⟩
  | blist xs => exact ⟨108, encItems xs ++ [101], by simp [encItem], by decide⟩
  | bdict ps => exact ⟨100, encPairs ps ++ [101], by simp [encItem], by decide⟩

theorem encItem_length_pos (t : BItem) : 1 ≤ (encItem t).length := by
  obtain ⟨c, r0, hc, _⟩ := encItem_head t
  rw [hc]
  simp

/-- Modelled from the spec, main direction: decoding the encoding of any
well-formed tree, followed by arbitrary trailing bytes, finds exactly
that tree and leaves exactly the trailing bytes. -/
theorem enc_roundtrip (t : BItem) : bencode_wf t = true → ∀ u f,
    2 * ((encItem t).length + u.length) < f →
    bdec f (encItem t ++ u) = .found t u := by
  refine @BItem.rec
    (fun t => bencode_wf t = true → ∀ u f, 2 * ((encItem t).length + u.length) < f →
      bdec f (encItem t ++ u) = .found t u)
    (fun xs => wfItems xs = true → ∀ u f,
      2 * (encItems xs).length + 2 * u.length + 3 < f →
      bdecSeq f (encItems xs ++ 101 :: u) = .found xs u)
    (fun ps => wfPairs ps = true → ∀ u f,
      2 * (encPairs ps).length + 2 * u.length + 3 < f →
      bdecPairs f (encPairs ps ++ 101 :: u) = .found ps u)
    (fun kv => bencode_wf kv.2 = true → ∀ u f, 2 * ((encItem kv.2).length + u.length) < f →
      bdec f (encItem kv.2 ++ u) = .found kv.2 u)
    ?_ ?_ ?_ ?_ ?_ ?_ ?_ ?_ ?_ t
  · intro s _ u f hf
    have h1 := encItem_length_pos (.bstr s)
    exact enc_bstr_dec s u (by omega)
  · intro i hwf u f hf
    simp only [bencode_wf, Bool.and_eq_true, decide_eq_true_eq] at hwf
    exact enc_bint_dec i hwf.1 hwf.2 u (by omega)
  · intro xs ihxs hwf u f hf
    simp only [bencode_wf] at hwf
    have hlen : (encItem (.blist xs)).length = (encItems xs).length + 2 := by
      simp [encItem]
    rw [hlen] at hf
    match f, hf with
    | f2+1, hf =>
      rw [show encItem (.blist xs) ++ u = 108 :: (encItems xs ++ 101 :: u) from by
        simp [encItem]]
      rw [bdec_cons_108, ihxs hwf u f2 (by omega)]
      rfl
  · intro ps ihps hwf u f hf
    simp only [bencode_wf] at hwf
    have hlen : (encItem (.bdict ps)).length = (encPairs ps).length + 2 := by
      simp [encItem]
    rw [hlen] at hf
    match f, hf with
    | f2+1, hf =>
      rw [show encItem (.bdict ps) ++ u = 100 :: (encPairs ps ++ 101 :: u) from by
        simp [encItem]]
      rw [bdec_cons_100, ihps hwf u f2 (by omega)]
      rfl
  · intro _ u f hf
    match f, hf with
    | f2+1, hf =>
      rw [show encItems [] ++ 101 :: u = 101 :: u from by simp [encItems]]
      exact bdecSeq_cons_101 f2 u
  · intro x xs2 ihx ihxs hwf u f hf
    simp only [wfItems, Bool.and_eq_true] at hwf
    obtain ⟨c, r0, hc, hc101⟩ := encItem_head x
    have hlen : (encItems (x :: xs2)).length
        = (encItem x).length + (encItems xs2).length := by
      simp [encItems]
    rw [hlen] at hf
    have hpos := encItem_length_pos x
    match f, hf with
    | f2+1, hf =>
      have hshape : encItems (x :: xs2) ++ 101 :: u
          = c :: (r0 ++ (encItems xs2 ++ 101 :: u)) := by
        simp [encItems, hc]
      rw [hshape, bdecSeq_cons_ne f2 hc101]
      have hlen2 : (encItems xs2 ++ 101 :: u).length
          = (encItems xs2).length + 1 + u.length := by
        simp
        omega
      have hx := ihx hwf.1 (encItems xs2 ++ 101 :: u) f2 (by rw [hlen2]; omega)
      rw [hc, List.cons_append] at hx
      rw [hx]
      dsimp only [seqComb]
      rw [ihxs hwf.2 u f2 (by omega)]
  · intro _ u f hf
    match f, hf with
    | f2+1, hf =>
      rw [show encPairs [] ++ 101 :: u = 101 :: u from by simp [encPairs]]
      exact bdecPairs_cons_101 f2 u
  · intro kv ps2 ihv ihps hwf u f hf
    obtain ⟨k, v⟩ := kv
    dsimp only at ihv
    simp only [wfPairs, Bool.and_eq_true] at hwf
    obtain ⟨d, ds, hnd⟩ := List.exists_cons_of_ne_nil (natDigits_ne_nil k.length)
    have hdigd : isDigit d = true :=
      natDigits_isDigit k.length d (by rw [hnd]; exact List.mem_cons_self _ _)
    have hd101 : ¬ d = 101 := by
      obtain ⟨h1, h2⟩ := isDigit_iff.mp hdigd
      omega
    have hlen : (encPairs ((k, v) :: ps2)).length
        = (natDigits k.length).length + 1 + k.length
          + (encItem v).length + (encPairs ps2).length := by
      simp [encPairs]
      omega
    rw [hlen] at hf
    have hposv := encItem_length_pos v
    match f, hf with
    | f2+1, hf =>
      have hshape : encPairs ((k, v) :: ps2) ++ 101 :: u
          = d :: ((ds ++ 58 :: k) ++ (encItem v ++ (encPairs ps2 ++ 101 :: u))) := by
        simp [encPairs, hnd]
      rw [hshape, bdecPairs_cons_ne f2 hd101]
      have hkey := enc_bstr_dec k (encItem v ++ (encPairs ps2 ++ 101 :: u))
        (show 1 ≤ f2 by omega)
      rw [hnd] at hkey
      rw [show ((d :: ds ++ 58 :: k) ++ (encItem v ++ (encPairs ps2 ++ 101 :: u)))
          = d :: ((ds ++ 58 :: k) ++ (encItem v ++ (encPairs ps2 ++ 101 :: u))) from by
        simp] at hkey
      rw [hkey]
      dsimp only [pairComb]
      have hlen2 : (encPairs ps2 ++ 101 :: u).length
          = (encPairs ps2).length + 1 + u.length := by
        simp
        omega
      have hv := ihv hwf.1 (encPairs ps2 ++ 101 :: u) f2 (by rw [hlen2]; omega)
      rw [hv]
      dsimp only
      rw [ihps hwf.2 u f2 (by omega)]
  · intro fst snd h
    exact h

/-! Wrapper-level corollaries used by the claims. -/

/-- C1: decoding the bytes produced by encoding any tree of strings,
64-bit integers, lists and dictionaries yields a structurally and
value-equal tree, with the root consumed count equal to the full encoded
length. -/
theorem C1_decode_collapse_roundtrip (t : BItem) (hwf : bencode_wf t = true) :
    bencode_decode (bencode_collapse t).1 = some (t, (bencode_collapse t).2) := by
  show bencode_decode (encItem t) = some (t, (encItem t).length)
  have h := enc_roundtrip t hwf [] (2 * (encItem t).length + 1)
    (by simp only [List.length_nil, Nat.add_zero]; omega)
  rw [List.append_nil] at h
  unfold bencode_decode
  rw [h]
  simp

theorem C1_witness :
    bencode_wf (.bdict [([107, 101, 121], .blist [.bstr [97, 0, 255], .bint (-5), .bdict []])])
      = true ∧
    bencode_decode (bencode_collapse
        (.bdict [([107, 101, 121], .blist [.bstr [97, 0, 255], .bint (-5), .bdict []])])).1
      = some ((.bdict [([107, 101, 121],
            .blist [.bstr [97, 0, 255], .bint (-5), .bdict []])] : BItem),
          (bencode_collapse
            (.bdict [([107, 101, 121],
              .blist [.bstr [97, 0, 255], .bint (-5), .bdict []])])).2) :=
  ⟨by decide, C1_decode_collapse_roundtrip _ (by decide)⟩

/-- C2: bencode_valid returns exactly one of a non-negative consumed
count bounded by the input length, the incomplete sentinel -1, or the
invalid sentinel -2; and truncating a complete valid document strictly
never yields the invalid sentinel: every strict front part validates as
incomplete (or, as the claim permits, a shorter valid consumed count). -/
theorem C2_valid_outcomes :
    (∀ s : List Nat, bencode_valid s = -1 ∨ bencode_valid s = -2 ∨
      (0 ≤ bencode_valid s ∧ bencode_valid s ≤ (s.length : Int))) ∧
    (∀ D : List Nat, bencode_valid D = (D.length : Int) →
      ∀ m, m < D.length →
        bencode_valid (D.take m) = -1 ∨
          (0 ≤ bencode_valid (D.take m) ∧ bencode_valid (D.take m) < (D.length : Int))) := by
  constructor
  · intro s
    unfold bencode_valid
    cases hres : bdec (2 * s.length + 1) s with
    | found t rest =>
      right
      right
      dsimp only
      constructor
      · exact Int.natCast_nonneg _
      · exact_mod_cast Nat.sub_le s.length rest.length
    | more => left; rfl
    | bad => right; left; rfl
  · intro D hvalid m hm
    left
    unfold bencode_valid at hvalid
    cases hres : bdec (2 * D.length + 1) D with
    | found t rest =>
      rw [hres] at hvalid
      dsimp only at hvalid
      have h2 : D.length - rest.length = D.length := by exact_mod_cast hvalid
      obtain ⟨p, hp1, hp2, hext, htr⟩ := (found_pack (2 * D.length + 1)).1 D t rest hres
      have hrl : rest.length ≤ D.length := by rw [hp1]; simp
      have hrest : rest = [] := by
        have h0 : rest.length = 0 := by omega
        exact List.length_eq_zero.mp h0
      subst hrest
      rw [List.append_nil] at hp1
      subst hp1
      unfold bencode_valid
      rw [htr (2 * (D.take m).length + 1) m hm]
    | more =>
      rw [hres] at hvalid
      dsimp only at hvalid
      exact absurd hvalid (by omega)
    | bad =>
      rw [hres] at hvalid
      dsimp only at hvalid
      exact absurd hvalid (by omega)

theorem C2_witness :
    (bencode_valid [100, 101] = -1 ∨ bencode_valid [100, 101] = -2 ∨
      (0 ≤ bencode_valid [100, 101] ∧
        bencode_valid [100, 101] ≤ (([100, 101] : List Nat).length : Int))) ∧
    (bencode_valid (([100, 101] : List Nat).take 1) = -1 ∨
      (0 ≤ bencode_valid (([100, 101] : List Nat).take 1) ∧
        bencode_valid (([100, 101] : List Nat).take 1)
          < (([100, 101] : List Nat).length : Int))) :=
  ⟨C2_valid_outcomes.1 [100, 101], C2_valid_outcomes.2 [100, 101] (by decide) 1 (by decide)⟩

/-- C3: for a valid encoded document D (decoding D consumes exactly D)
and arbitrary trailing bytes T, decoding D ++ T succeeds with the same
root item and the root str_len equals exactly the length of D,
independent of T. -/
theorem C3_decode_trailing (D : List Nat) (t : BItem) (T : List Nat)
    (h : bencode_decode D = some (t, D.length)) :
    bencode_decode (D ++ T) = some (t, D.length) := by
  unfold bencode_decode at h
  cases hres : bdec (2 * D.length + 1) D with
  | found t0 rest =>
    rw [hres] at h
    dsimp only at h
    simp only [Option.some.injEq, Prod.mk.injEq] at h
    obtain ⟨h1, h2⟩ := h
    subst h1
    obtain ⟨p, hp1, hp2, hext, htr⟩ := (found_pack (2 * D.length + 1)).1 D t0 rest hres
    have hrl : rest.length ≤ D.length := by rw [hp1]; simp
    have hD0 : D.length ≠ 0 := by
      intro h0
      rw [List.length_eq_zero.mp h0, bdec_nil] at hres
      exact DRes.noConfusion hres
    have hrest : rest = [] := by
      have h0 : rest.length = 0 := by omega
      exact List.length_eq_zero.mp h0
    subst hrest
    rw [List.append_nil] at hp1
    subst hp1
    have hT := hext T
    have hmono : bdec (2 * (D ++ T).length + 1) (D ++ T) = .found t0 T := by
      have hle : 2 * D.length + 1 ≤ 2 * (D ++ T).length + 1 := by
        simp only [List.length_append]
        omega
      rw [bdec_mono hle (by rw [hT]; simp), hT]
    unfold bencode_decode
    rw [hmono]
    dsimp only
    congr 1
    simp only [Prod.mk.injEq, List.length_append, Nat.add_sub_cancel]
  | more =>
    rw [hres] at h
    exact Option.noConfusion h
  | bad =>
    rw [hres] at h
    exact Option.noConfusion h

theorem C3_witness :
    bencode_decode [105, 52, 50, 101] = some (.bint 42, ([105, 52, 50, 101] : List Nat).length) ∧
    bencode_decode ([105, 52, 50, 101] ++ [120, 121])
      = some (.bint 42, ([105, 52, 50, 101] : List Nat).length) :=
  ⟨rfl, C3_decode_trailing [105, 52, 50, 101] (.bint 42) [120, 121] rfl⟩

/-- C7: decoding i03e fails (leading zero), decoding i-0e fails (negative
zero), and for 3:ab (declared length exceeding the available bytes)
validation reports the incomplete sentinel while decoding returns an
absent result. -/
theorem C7_error_scenarios :
    bencode_decode [105, 48, 51, 101] = none ∧
    bencode_decode [105, 45, 48, 101] = none ∧
    bencode_valid [51, 58, 97, 98] = -1 ∧
    bencode_decode [51, 58, 97, 98] = none :=
  ⟨rfl, rfl, rfl, rfl⟩

/-- C8: encoding produces the exact grammar byte sequences: de for the
empty dictionary, i42e and i-1e for the integers 42 and -1, 4:spam for
the string spam, and l4:spami42ee for the list of those two, with
bencode_collapse reporting the exact byte length alongside the buffer. -/
theorem C8_encode_scenarios :
    bencode_collapse (.bdict []) = ([100, 101], 2) ∧
    bencode_collapse (.bint 42) = ([105, 52, 50, 101], 4) ∧
    bencode_collapse (.bint (-1)) = ([105, 45, 49, 101], 4) ∧
    bencode_collapse (.bstr [115, 112, 97, 109]) = ([52, 58, 115, 112, 97, 109], 6) ∧
    bencode_collapse (.blist [.bstr [115, 112, 97, 109], .bint 42])
      = ([108, 52, 58, 115, 112, 97, 109, 105, 52, 50, 101, 101], 12) :=
  ⟨rfl, rfl, rfl, rfl, rfl⟩

/-! Dictionary lookup: hash-indexed and linear paths. -/

/-- Modelled from the spec: BENCODE_HASH_BUCKETS, the fixed small number
of hash buckets of the dictionary index (the exact constant lives in
bencode.c, absent from the sources). -/
def BENCODE_HASH_BUCKETS : Nat := 31

/-- Modelled from the spec: the key hash of the dictionary index in
bencode.c (absent from the sources): a deterministic function of the key
bytes reduced to a bucket number. -/
def bencode_hash (k : List Nat) : Nat :=
  (k.foldl (fun a c => a * 31 + c) 0) % BENCODE_HASH_BUCKETS

/-- Modelled from the spec: the chain of one hash bucket, holding the
dictionary entries whose key hashes to that bucket, in insertion order. -/
def bucketChain (ps : List (List Nat × BItem)) (b : Nat) : List (List Nat × BItem) :=
  ps.filter (fun e => bencode_hash e.1 == b)

/-- Modelled from the spec: indexed lookup of bencode.c (absent from the
sources): hash the requested key, scan only the matching bucket chain by
exact byte comparison, return the first match in insertion order. -/
def dictGetIndexed (ps : List (List Nat × BItem)) (key : List Nat) : Option BItem :=
  ((bucketChain ps (bencode_hash key)).find? (fun e => e.1 == key)).map (fun e => e.2)

/-- Modelled from the spec: the linear scan fallback over the children,
with the same first-match-wins semantics. -/
def dictGetLinear (ps : List (List Nat × BItem)) (key : List Nat) : Option BItem :=
  (ps.find? (fun e => e.1 == key)).map (fun e => e.2)

/-- Modelled from the spec: bencode_dictionary_get_len of bencode.c
(absent from the sources): uses the hash index when the dictionary has
one (decoded, within the bucket benefit threshold), the linear scan
otherwise (builder-created, or exceeding the threshold). -/
def bencode_dictionary_get_len (hasIndex : Bool) (ps : List (List Nat × BItem))
    (key : List Nat) : Option BItem :=
  if hasIndex then dictGetIndexed ps key else dictGetLinear ps key

theorem find?_filter_eq {α : Type} (l : List α) (p q : α → Bool)
    (himp : ∀ x, p x = true → q x = true) :
    (l.filter q).find? p = l.find? p := by
  induction l with
  | nil => rfl
  | cons a l ih =>
    by_cases hq : q a = true
    · rw [List.filter_cons_of_pos hq]
      by_cases hp : p a = true
      · rw [List.find?_cons_of_pos _ hp, List.find?_cons_of_pos _ hp]
      · rw [List.find?_cons_of_neg _ (by simpa using hp),
          List.find?_cons_of_neg _ (by simpa using hp), ih]
    · rw [List.filter_cons_of_neg (by simpa using hq)]
      have hp : ¬ p a = true := fun hpa => hq (himp a hpa)
      rw [List.find?_cons_of_neg _ (by simpa using hp), ih]

theorem dictGetIndexed_eq_linear (ps : List (List Nat × BItem)) (key : List Nat) :
    dictGetIndexed ps key = dictGetLinear ps key := by
  unfold dictGetIndexed dictGetLinear bucketChain
  rw [find?_filter_eq]
  intro e he
  have he2 : e.1 = key := by simpa using he
  rw [he2]
  simp

/-! The arena allocator. -/

/-- One memory piece of an arena: its capacity and the bytes used. -/
structure BPiece : Type where
  cap : Nat
  used : Nat

/-- The arena (struct bencode_buffer): an ordered list of pieces and the
sticky allocation-error flag. -/
structure bencode_buffer : Type where
  pieces : List BPiece
  error : Bool

/-- Modelled from the spec: the default piece size of the arena (the
exact constant lives in bencode.c, absent from the sources). -/
def BENCODE_ALLOC_PIECE : Nat := 1024

/-- Modelled from the spec: bencode_buffer_alloc of bencode.c (absent
from the sources).  Carves memory from the current piece, creating and
linking a new piece (sized to at least the larger of the default piece
size and the request) when the current piece lacks room; the success of
the underlying system allocation for a new piece is the sysOk argument.
On any allocation failure it sets the sticky error flag and returns an
absent result, and it returns an absent result for every call made with
the error flag already set. -/
def bencode_buffer_alloc (sysOk : Bool) (buf : bencode_buffer) (size : Nat) :
    Option Nat × bencode_buffer :=
  if buf.error then (none, buf)
  else
    match buf.pieces with
    | p :: rest =>
      if size ≤ p.cap - p.used then
        (some p.used, ⟨⟨p.cap, p.used + size⟩ :: rest, false⟩)
      else if sysOk then
        (some 0, ⟨⟨max BENCODE_ALLOC_PIECE size, size⟩ :: p :: rest, false⟩)
      else (none, ⟨buf.pieces, true⟩)
    | [] =>
      if sysOk then (some 0, ⟨[⟨max BENCODE_ALLOC_PIECE size, size⟩], false⟩)
      else (none, ⟨buf.pieces, true⟩)

/-- A sequence of allocation calls threaded through one arena; each call
carries the success of the underlying system allocation and the size. -/
def allocRun (buf : bencode_buffer) : List (Bool × Nat) → List (Option Nat) × bencode_buffer
  | [] => ([], buf)
  | (ok, sz) :: calls =>
    let r := bencode_buffer_alloc ok buf sz
    let rr := allocRun r.2 calls
    (r.1 :: rr.1, rr.2)

/-! Builders over possibly absent inputs.  The crash outcome marks a
dereference of an absent pointer. -/

/-- Outcome of a builder call: a value, an absent result (NULL returned),
or a dereference of an absent pointer. -/
inductive CRes (α : Type) : Type where
  | ok : α → CRes α
  | nullret : CRes α
  | crash : CRes α

/-- Translated from bencode.h: bencode_strdup allocates strlen(s)+1
bytes from the arena and immediately strcpy-copies into the returned
pointer without checking it; when the allocation returns an absent
pointer the strcpy dereferences it, modelled as the crash outcome. -/
def bencode_strdup (sysOk : Bool) (buf : bencode_buffer) (s : List Nat) :
    CRes (List Nat) × bencode_buffer :=
  match bencode_buffer_alloc sysOk buf (s.length + 1) with
  | (some _, buf2) => (.ok s, buf2)
  | (none, buf2) => (.crash, buf2)

/-- Translated from bencode.h: bencode_strdup_str builds a str of length
strlen(s), allocates that many bytes and memcpy-copies into the
unchecked allocation; with length zero the memcpy moves nothing and no
dereference happens (the returned str carries an absent pointer),
otherwise an absent allocation is dereferenced. -/
def bencode_strdup_str (sysOk : Bool) (buf : bencode_buffer) (s : List Nat) :
    CRes (List Nat) × bencode_buffer :=
  match bencode_buffer_alloc sysOk buf s.length with
  | (some _, buf2) => (.ok s, buf2)
  | (none, buf2) => if s.length = 0 then (.nullret, buf2) else (.crash, buf2)

/-- Modelled from the spec: bencode_dictionary_add_len of bencode.c
(absent from the sources): per the spec every builder tolerates an
absent input by no-op'ing; appends the key/value pair and returns the
value, an absent result when the dictionary or the value is absent. -/
def bencode_dictionary_add_len (dict : Option (List (List Nat × BItem))) (key : List Nat)
    (val : Option BItem) : CRes BItem × Option (List (List Nat × BItem)) :=
  match dict, val with
  | some d, some v => (.ok v, some (d ++ [(key, v)]))
  | _, _ => (.nullret, dict)

/-- Translated from bencode.h: bencode_dictionary_add returns an absent
result for an absent key and otherwise defers to
bencode_dictionary_add_len with strlen(key). -/
def bencode_dictionary_add (dict : Option (List (List Nat × BItem)))
    (key : Option (List Nat)) (val : Option BItem) :
    CRes BItem × Option (List (List Nat × BItem)) :=
  match key with
  | none => (.nullret, dict)
  | some k => bencode_dictionary_add_len dict k val

/-- Modelled from the spec: bencode_list_add of bencode.c (absent from
the sources): appends the item to the list children, no-op'ing on absent
inputs and returning the item. -/
def bencode_list_add (lst : Option (List BItem)) (item : Option BItem) :
    CRes BItem × Option (List BItem) :=
  match lst, item with
  | some l, some v => (.ok v, some (l ++ [v]))
  | _, _ => (.nullret, lst)

/-! String comparison. -/

/-- Byte-wise comparison of two byte sequences up to the shorter length,
with the sign convention of memcmp: negative, zero or positive according
to the first differing byte. -/
def memcmp : List Nat → List Nat → Int
  | [], _ => 0
  | _ :: _, [] => 0
  | x :: xs, y :: ys => if x < y then -1 else if y < x then 1 else memcmp xs ys

/-- Translated from bencode.h lines 562 to 572: bencode_strcmp returns 2
when the item is not a string; otherwise it compares the string byte
length against strlen(b), returning -1 or 1 on a length mismatch, and
the memcmp of the byte sequences when the lengths are equal. -/
def bencode_strcmp (a : BItem) (b : List Nat) : Int :=
  match a with
  | .bstr s =>
    if s.length < b.length then -1
    else if s.length > b.length then 1
    else memcmp s b
  | _ => 2

/-! The encoder with the memoized per-item encoded-length field. -/

/-- An item as seen by the encoder: the tree together with the memoized
encoded-length field of each node (0 when not yet computed, as freshly
built or decoded trees have it). -/
inductive AItem : Type where
  | astr : List Nat → Nat → AItem
  | aint : Int → Nat → AItem
  | alist : List AItem → Nat → AItem
  | adict : List (AItem × AItem) → Nat → AItem

/-- The memoized encoded-length field of an item. -/
def mlen : AItem → Nat
  | .astr _ m => m
  | .aint _ m => m
  | .alist _ m => m
  | .adict _ m => m

/-- Sum of the memoized lengths of the members of a list item. -/
def sumLens : List AItem → Nat
  | [] => 0
  | x :: xs => mlen x + sumLens xs

/-- Sum of the memoized lengths over the key/value pairs of a
dictionary item. -/
def sumLensP : List (AItem × AItem) → Nat
  | [] => 0
  | (k, v) :: ps => mlen k + mlen v + sumLensP ps

mutual
/-- Modelled from the spec: the measure pass of the encoder in bencode.c
(absent from the sources): recursively computes and memoizes each item's
total encoded length bottom-up; an already memoized (non-zero) length is
kept rather than recomputed. -/
def bannotate : AItem → AItem
  | .astr s m => .astr s (if m ≠ 0 then m else (natDigits s.length).length + 1 + s.length)
  | .aint i m => .aint i (if m ≠ 0 then m else (intChars i).length + 2)
  | .alist xs m =>
    let ys := bannotateL xs
    .alist ys (if m ≠ 0 then m else 2 + sumLens ys)
  | .adict ps m =>
    let qs := bannotateP ps
    .adict qs (if m ≠ 0 then m else 2 + sumLensP qs)

/-- The measure pass over the members of a list item. -/
def bannotateL : List AItem → List AItem
  | [] => []
  | x :: xs => bannotate x :: bannotateL xs

/-- The measure pass over the key/value pairs of a dictionary item. -/
def bannotateP : List (AItem × AItem) → List (AItem × AItem)
  | [] => []
  | (k, v) :: ps => (bannotate k, bannotate v) :: bannotateP ps
end

mutual
/-- Modelled from the spec: the emit pass of the encoder in bencode.c
(absent from the sources): walks the tree in deterministic pre-order,
rendering the grammar framing and the payload bytes of every node. -/
def bemit : AItem → List Nat
  | .astr s _ => natDigits s.length ++ 58 :: s
  | .aint i _ => 105 :: intChars i ++ [101]
  | .alist xs _ => 108 :: bemitL xs ++ [101]
  | .adict ps _ => 100 :: bemitP ps ++ [101]

/-- The emit pass over the members of a list item. -/
def bemitL : List AItem → List Nat
  | [] => []
  | x :: xs => bemit x ++ bemitL xs

/-- The emit pass over the key/value pairs of a dictionary item, key
then value in insertion order. -/
def bemitP : List (AItem × AItem) → List Nat
  | [] => []
  | (k, v) :: ps => bemit k ++ bemit v ++ bemitP ps
end

/-- Modelled from the spec: one encoding run behind bencode_iovec and
bencode_collapse: pass 1 (measure) annotates the tree with memoized
lengths, pass 2 (emit) renders the bytes; the run returns the tree as it
stands after the run (the memo fields persist in the items), the total
encoded length read from the root memo, and the emitted bytes. -/
def bencode_iovec_run (t : AItem) : AItem × Nat × List Nat :=
  (bannotate t, mlen (bannotate t), bemit (bannotate t))

mutual
/-- All memoized length fields of an item are set (non-zero). -/
def allSet : AItem → Bool
  | .astr _ m => decide (m ≠ 0)
  | .aint _ m => decide (m ≠ 0)
  | .alist xs m => decide (m ≠ 0) && allSetL xs
  | .adict ps m => decide (m ≠ 0) && allSetP ps

/-- All memoized length fields over a member list are set. -/
def allSetL : List AItem → Bool
  | [] => true
  | x :: xs => allSet x && allSetL xs

/-- All memoized length fields over key/value pairs are set. -/
def allSetP : List (AItem × AItem) → Bool
  | [] => true
  | (k, v) :: ps => allSet k && allSet v && allSetP ps
end

theorem bannotate_allSet (t : AItem) : allSet (bannotate t) = true := by
  refine @AItem.rec
    (fun t => allSet (bannotate t) = true)
    (fun xs => allSetL (bannotateL xs) = true)
    (fun ps => allSetP (bannotateP ps) = true)
    (fun kv => allSet (bannotate kv.1) = true ∧ allSet (bannotate kv.2) = true)
    ?_ ?_ ?_ ?_ ?_ ?_ ?_ ?_ ?_ t
  · intro s m
    by_cases hm : m ≠ 0 <;> simp [bannotate, allSet, hm]
  · intro i m
    have h2 : (intChars i).length + 2 ≠ 0 := by omega
    by_cases hm : m ≠ 0 <;> simp [bannotate, allSet, hm]
  · intro xs m ihxs
    by_cases hm : m ≠ 0 <;> simp [bannotate, allSet, hm, ihxs]
  · intro ps m ihps
    by_cases hm : m ≠ 0 <;> simp [bannotate, allSet, hm, ihps]
  · simp [bannotateL, allSetL]
  · intro x xs ihx ihxs
    simp [bannotateL, allSetL, ihx, ihxs]
  · simp [bannotateP, allSetP]
  · intro kv ps ihkv ihps
    obtain ⟨k, v⟩ := kv
    simp [bannotateP, allSetP, ihkv.1, ihkv.2, ihps]
  · intro k v ihk ihv
    exact ⟨ihk, ihv⟩

theorem bannotate_idem (t : AItem) (h : allSet t = true) : bannotate t = t := by
  refine @AItem.rec
    (fun t => allSet t = true → bannotate t = t)
    (fun xs => allSetL xs = true → bannotateL xs = xs)
    (fun ps => allSetP ps = true → bannotateP ps = ps)
    (fun kv => (allSet kv.1 = true → bannotate kv.1 = kv.1) ∧
      (allSet kv.2 = true → bannotate kv.2 = kv.2))
    ?_ ?_ ?_ ?_ ?_ ?_ ?_ ?_ ?_ t h
  · intro s m hm
    simp only [allSet, decide_eq_true_eq] at hm
    simp [bannotate, hm]
  · intro i m hm
    simp only [allSet, decide_eq_true_eq] at hm
    simp [bannotate, hm]
  · intro xs m ihxs hm
    simp only [allSet, Bool.and_eq_true, decide_eq_true_eq] at hm
    simp [bannotate, hm.1, ihxs hm.2]
  · intro ps m ihps hm
    simp only [allSet, Bool.and_eq_true, decide_eq_true_eq] at hm
    simp [bannotate, hm.1, ihps hm.2]
  · intro _
    rfl
  · intro x xs ihx ihxs hm
    simp only [allSetL, Bool.and_eq_true] at hm
    simp [bannotateL, ihx hm.1, ihxs hm.2]
  · intro _
    rfl
  · intro kv ps ihkv ihps hm
    obtain ⟨k, v⟩ := kv
    simp only [allSetP, Bool.and_eq_true] at hm
    simp [bannotateP, ihkv.1 hm.1.1, ihkv.2 hm.1.2, ihps hm.2]
  · intro k v ihk ihv
    exact ⟨ihk, ihv⟩

/-- C9: running the encoder twice on an unmodified tree yields the same
total encoded length and the same output bytes, despite the memoized
per-item length field being filled in lazily on the first pass. -/
theorem C9_encode_idempotent (t : AItem) :
    (bencode_iovec_run (bencode_iovec_run t).1).2.1 = (bencode_iovec_run t).2.1 ∧
    (bencode_iovec_run (bencode_iovec_run t).1).2.2 = (bencode_iovec_run t).2.2 := by
  have h := bannotate_idem (bannotate t) (bannotate_allSet t)
  unfold bencode_iovec_run
  dsimp only
  rw [h]
  exact ⟨rfl, rfl⟩

/-- C4: dictionary lookup is first-match-wins in insertion order, and
the hash-indexed path and the linear-scan path agree on every
dictionary and key; in particular with duplicate keys k1=v1, k1=v2,
k2=v3 the lookup of k1 returns v1 with and without the index. -/
theorem C4_dictionary_get_first_match :
    (∀ (hasIndex : Bool) (ps : List (List Nat × BItem)) (key : List Nat),
      bencode_dictionary_get_len hasIndex ps key
        = (ps.find? (fun e => e.1 == key)).map (fun e => e.2)) ∧
    (∀ (hasIndex : Bool) (k1 k2 : List Nat) (v1 v2 v3 : BItem),
      bencode_dictionary_get_len hasIndex [(k1, v1), (k1, v2), (k2, v3)] k1 = some v1) := by
  have hmain : ∀ (hasIndex : Bool) (ps : List (List Nat × BItem)) (key : List Nat),
      bencode_dictionary_get_len hasIndex ps key = dictGetLinear ps key := by
    intro hasIndex ps key
    cases hasIndex with
    | true =>
      rw [show bencode_dictionary_get_len true ps key = dictGetIndexed ps key from rfl]
      exact dictGetIndexed_eq_linear ps key
    | false => rfl
  constructor
  · intro hasIndex ps key
    rw [hmain]
    rfl
  · intro hasIndex k1 k2 v1 v2 v3
    rw [hmain]
    unfold dictGetLinear
    rw [List.find?_cons_of_pos _ (by simp)]
    rfl

/-- C5: a failing allocation sets the arena's sticky error flag; once
the flag is set, that allocation and every subsequent allocation call on
the same arena returns an absent result and leaves the arena unchanged,
so the flag stays set until the arena is destroyed. -/
theorem C5_alloc_sticky :
    (∀ (ok : Bool) (buf : bencode_buffer) (size : Nat),
      (bencode_buffer_alloc ok buf size).1 = none →
        (bencode_buffer_alloc ok buf size).2.error = true) ∧
    (∀ buf : bencode_buffer, buf.error = true →
      ∀ (ok : Bool) (size : Nat), bencode_buffer_alloc ok buf size = (none, buf)) ∧
    (∀ buf : bencode_buffer, buf.error = true →
      ∀ calls, (allocRun buf calls).1 = calls.map (fun _ => (none : Option Nat)) ∧
        (allocRun buf calls).2 = buf) := by
  have hstick : ∀ buf : bencode_buffer, buf.error = true →
      ∀ (ok : Bool) (size : Nat), bencode_buffer_alloc ok buf size = (none, buf) := by
    intro buf hb ok size
    unfold bencode_buffer_alloc
    rw [if_pos hb]
  refine ⟨?_, hstick, ?_⟩
  · intro ok buf size hnone
    by_cases hb : buf.error = true
    · rw [hstick buf hb ok size]
      exact hb
    · unfold bencode_buffer_alloc at hnone ⊢
      rw [if_neg hb] at hnone ⊢
      cases hp : buf.pieces with
      | nil =>
        rw [hp] at hnone
        cases ok with
        | true => simp at hnone
        | false => simp
      | cons p rest =>
        rw [hp] at hnone
        by_cases hfit : size ≤ p.cap - p.used
        · simp [hfit] at hnone
        · cases ok with
          | true => simp [hfit] at hnone
          | false => simp [hfit]
  · intro buf hb calls
    induction calls with
    | nil => exact ⟨rfl, rfl⟩
    | cons c cs ih =>
      obtain ⟨ok, sz⟩ := c
      constructor
      · show (bencode_buffer_alloc ok buf sz).1
            :: (allocRun (bencode_buffer_alloc ok buf sz).2 cs).1 = _
        rw [hstick buf hb ok sz]
        dsimp only
        rw [ih.1]
        rfl
      · show (allocRun (bencode_buffer_alloc ok buf sz).2 cs).2 = buf
        rw [hstick buf hb ok sz]
        exact ih.2

theorem C5_witness :
    (⟨[], true⟩ : bencode_buffer).error = true ∧
    bencode_buffer_alloc true ⟨[], true⟩ 5 = (none, (⟨[], true⟩ : bencode_buffer)) ∧
    (allocRun ⟨[], true⟩ [(true, 3), (false, 7)]).1
      = [(true, 3), (false, 7)].map (fun _ => (none : Option Nat)) ∧
    (bencode_buffer_alloc false ⟨[⟨10, 10⟩], false⟩ 5).2.error = true :=
  ⟨rfl, C5_alloc_sticky.2.1 ⟨[], true⟩ rfl true 5,
    (C5_alloc_sticky.2.2 ⟨[], true⟩ rfl [(true, 3), (false, 7)]).1,
    C5_alloc_sticky.1 false ⟨[⟨10, 10⟩], false⟩ 5 rfl⟩

/-- C6 counterexample: with the arena's sticky error flag set, the
allocation inside bencode_strdup returns an absent pointer and the
unconditional strcpy dereferences it: this builder call crashes rather
than completing, so not every builder function tolerates an absent
result by no-op'ing. -/
theorem C6_counterexample :
    (bencode_strdup true ⟨[], true⟩ [97]).1 = CRes.crash := rfl

/-- C6 amended: the item-level builders (dictionary and list add, with
absent dictionaries, keys, values or items) complete without
dereferencing an absent value and no-op, leaving a silently incomplete
document; the string duplication helpers bencode_strdup and
bencode_strdup_str are the exception: they pass the unchecked allocation
result to strcpy and memcpy, so with the allocation flag set
bencode_strdup dereferences the absent pointer. -/
theorem C6_builders_tolerate_null :
    (∀ dict key val, (bencode_dictionary_add dict key val).1 ≠ CRes.crash) ∧
    (∀ dict key val, (bencode_dictionary_add_len dict key val).1 ≠ CRes.crash) ∧
    (∀ lst item, (bencode_list_add lst item).1 ≠ CRes.crash) ∧
    (∀ dict val, bencode_dictionary_add dict none val = (.nullret, dict)) ∧
    (∀ key val, bencode_dictionary_add_len none key val = (.nullret, none)) ∧
    (∀ item, bencode_list_add none item = (.nullret, none)) ∧
    (∀ (ok : Bool) (buf : bencode_buffer) (s : List Nat), buf.error = true →
      (bencode_strdup ok buf s).1 = CRes.crash) := by
  refine ⟨?_, ?_, ?_, ?_, ?_, ?_, ?_⟩
  · intro dict key val
    cases key with
    | none => simp [bencode_dictionary_add]
    | some k =>
      show (bencode_dictionary_add_len dict k val).1 ≠ CRes.crash
      cases dict <;> cases val <;> simp [bencode_dictionary_add_len]
  · intro dict key val
    cases dict <;> cases val <;> simp [bencode_dictionary_add_len]
  · intro lst item
    cases lst <;> cases item <;> simp [bencode_list_add]
  · intro dict val
    rfl
  · intro key val
    cases val <;> rfl
  · intro item
    rfl
  · intro ok buf s hb
    unfold bencode_strdup
    rw [show bencode_buffer_alloc ok buf (s.length + 1) = (none, buf) from by
      unfold bencode_buffer_alloc
      rw [if_pos hb]]

theorem C6_witness :
    (⟨[], true⟩ : bencode_buffer).error = true ∧
    (bencode_strdup false ⟨[], true⟩ [97, 98]).1 = CRes.crash :=
  ⟨rfl, C6_builders_tolerate_null.2.2.2.2.2.2 false ⟨[], true⟩ [97, 98] rfl⟩

/-- C10: bencode_strcmp returns 2 when the item is not a string;
otherwise -1 when the string is shorter than b, 1 when longer, and the
memcmp of the byte sequences at equal length — so for unequal lengths
the sign is decided by length alone, not lexicographic byte order, as
the final instance shows: the byte string z compares as -1 against aa
although byte-wise z is greater than a. -/
theorem C10_strcmp_spec :
    (∀ b v, bencode_strcmp (.bint v) b = 2) ∧
    (∀ b xs, bencode_strcmp (.blist xs) b = 2) ∧
    (∀ b ps, bencode_strcmp (.bdict ps) b = 2) ∧
    (∀ s b, s.length < b.length → bencode_strcmp (.bstr s) b = -1) ∧
    (∀ s b, b.length < s.length → bencode_strcmp (.bstr s) b = 1) ∧
    (∀ s b, s.length = b.length → bencode_strcmp (.bstr s) b = memcmp s b) ∧
    (bencode_strcmp (.bstr [122]) [97, 97] = -1 ∧ memcmp [122] [97] = 1 ∧ (97 : Nat) < 122) := by
  refine ⟨fun b v => rfl, fun b xs => rfl, fun b ps => rfl, ?_, ?_, ?_, rfl, rfl, by decide⟩
  · intro s b h
    unfold bencode_strcmp
    dsimp only
    rw [if_pos h]
  · intro s b h
    unfold bencode_strcmp
    dsimp only
    rw [if_neg (by omega), if_pos (by omega)]
  · intro s b h
    unfold bencode_strcmp
    dsimp only
    rw [if_neg (by omega), if_neg (by omega)]

theorem C10_witness :
    ([122] : List Nat).length < ([97, 97] : List Nat).length ∧
    bencode_strcmp (.bstr [122]) [97, 97] = -1 :=
  ⟨by decide, C10_strcmp_spec.2.2.2.1 [122] [97, 97] (by decide)⟩

end Bencode
